import Mathlib

/-!
Verification of the usfm2osis conversion pipeline (src/usfm2osis/convert.py)
and anthology sorter (src/usfm2osis/sort.py), via a shallow embedding of the
relevant Python functions over `List Char` documents.

Python strings are modelled as `List Char`.  `re.sub`/`str.replace` calls are
modelled as explicit left-to-right scans that mirror the leftmost-match,
non-overlapping semantics of the source patterns.  Character classes `\s` and
`\d` are modelled on their ASCII portion (all texts the claims concern are
ASCII plus the private-use scope markers U+FDD0..U+FDEF).
-/

namespace Usfm2Osis

/-- ASCII whitespace, the Python `\s` class restricted to ASCII
(space, tab, newline, carriage return, vertical tab, form feed). -/
def pySpace (c : Char) : Bool :=
  c = ' ' || c = '\t' || c = '\n' || c = '\x0d' || c = '\x0b' || c = '\x0c'

/-- The `\d` class (ASCII portion). -/
def pyDigit (c : Char) : Bool := c.isDigit

/-- A private-use scope-marker code point: U+FDD0 through U+FDEF. -/
def isScopeMarker (c : Char) : Bool :=
  0xFDD0 ≤ c.toNat && c.toNat ≤ 0xFDEF

/-- Python `str.split(sep)` for a one-character separator: the list of
(possibly empty) segments between occurrences of `sep`. -/
def splitOnChar (sep : Char) : List Char → List (List Char)
  | [] => [[]]
  | c :: cs =>
    if c = sep then [] :: splitOnChar sep cs
    else
      match splitOnChar sep cs with
      | [] => [[c]]
      | seg :: rest => (c :: seg) :: rest

/-- Python `str.replace(c, '')` for a one-character pattern: delete every
occurrence of `c`. -/
def eraseChar (c : Char) : List Char → List Char
  | [] => []
  | d :: ds => if d = c then eraseChar c ds else d :: eraseChar c ds

/-- Boolean test that `pat` occurs at the start of `s`. -/
def startsWith : List Char → List Char → Bool
  | [], _ => true
  | _ :: _, [] => false
  | p :: ps, c :: cs => p = c && startsWith ps cs

/-- Python `str.replace(pat, repl)` (leftmost, non-overlapping) with a
fuel argument so that the scan is structurally recursive. -/
def replaceLitFuel (pat repl : List Char) : Nat → List Char → List Char
  | 0, s => s
  | _ + 1, [] => []
  | fuel + 1, c :: cs =>
    if startsWith pat (c :: cs) then
      repl ++ replaceLitFuel pat repl fuel ((c :: cs).drop pat.length)
    else
      c :: replaceLitFuel pat repl fuel cs

/-- Python `str.replace(pat, repl)` for a non-empty literal pattern. -/
def replaceLit (pat repl : List Char) (s : List Char) : List Char :=
  replaceLitFuel pat repl s.length s

/- ------------------------------------------------------------------ -/
/- src/usfm2osis/sort.py                                              -/
/- ------------------------------------------------------------------ -/

/-- An element of the list built by `key_natural`: Python builds a list whose
elements are either `int` (accumulated digit runs) or one-character strings
(lowercased non-digit characters). -/
inductive KItem where
  | num : Nat → KItem
  | ch : Char → KItem
deriving DecidableEq, Repr

/-- Strict comparison of `key_natural` list elements.  Numbers compare by
value, characters by code point, and a number sorts before any character
(Python 2 cross-type ordering, which is what the source's doctest relies on;
the package predates Python 3's refusal to compare `int` with `str`). -/
def kItemLt : KItem → KItem → Bool
  | KItem.num a, KItem.num b => a < b
  | KItem.num _, KItem.ch _ => true
  | KItem.ch _, KItem.num _ => false
  | KItem.ch a, KItem.ch b => a < b

/-- Lexicographic "less or equal" on `key_natural` lists (Python list
comparison: element-wise with a shorter strict prefix comparing smaller). -/
def kListLe : List KItem → List KItem → Bool
  | [], _ => true
  | _ :: _, [] => false
  | x :: xs, y :: ys =>
    if kItemLt x y then true
    else if kItemLt y x then false
    else kListLe xs ys

/-- `key_natural` from sort.py: walk the string; a digit either starts a new
number or extends the previous element when that element is a number;
a non-digit is appended lowercased. -/
def key_natural (string : List Char) : List KItem :=
  let step := fun (sorted_list : List KItem) (char : Char) =>
    if pyDigit char then
      let digit := char.toNat - '0'.toNat
      match sorted_list.getLast? with
      | some (KItem.num n) => sorted_list.dropLast ++ [KItem.num (n * 10 + digit)]
      | _ => sorted_list ++ [KItem.num digit]
    else
      sorted_list ++ [KItem.ch char.toLower]
  string.foldl step []

/-- Modelled from the spec: the static table `FILENAME_TO_OSIS` from the
bookdata module (absent from src/), "the static dictionaries mapping markup
book codes to canonical identifiers".  A representative finite lookup from
source file codes to canonical (OSIS) identifiers. -/
def FILENAME_TO_OSIS : List (List Char × List Char) :=
  [("GEN".data, "Gen".data), ("EXO".data, "Exod".data),
   ("LEV".data, "Lev".data), ("NUM".data, "Num".data),
   ("DEU".data, "Deut".data), ("PSA".data, "Ps".data),
   ("MAL".data, "Mal".data), ("MAT".data, "Matt".data),
   ("MRK".data, "Mark".data), ("LUK".data, "Luke".data),
   ("JHN".data, "John".data), ("REV".data, "Rev".data)]

/-- Modelled from the spec: `CANONICAL_ORDER` from the bookdata module
(absent from src/), "position in a fixed canonical book sequence" — the
traditional sequence in which books of the corpus are arranged.  A
representative prefix-faithful slice of that fixed sequence (Old Testament
books before New Testament books, Genesis first, Exodus second, the Gospels
in order after Malachi, Revelation last). -/
def CANONICAL_ORDER : List (List Char) :=
  ["Gen".data, "Exod".data, "Lev".data, "Num".data, "Deut".data,
   "Ps".data, "Mal".data, "Matt".data, "Mark".data, "Luke".data,
   "John".data, "Rev".data]

/-- Association-list lookup (Python `dict` membership plus indexing). -/
def lookupTable (t : List (List Char × List Char)) (k : List Char) :
    Option (List Char) :=
  match t with
  | [] => none
  | (a, b) :: rest => if a = k then some b else lookupTable rest k

/-- `list.index` from Python: position of the first occurrence. -/
def indexOfList (x : List Char) : List (List Char) → Nat
  | [] => 0
  | y :: ys => if y = x then 0 else indexOfList x ys + 1

/-- `key_canon` from sort.py: canonical position of the book a filename maps
to, or infinity (`none`) when the filename is not in the lookup. -/
def key_canon (filename : List Char) : Option Nat :=
  match lookupTable FILENAME_TO_OSIS filename with
  | some osis => some (indexOfList osis CANONICAL_ORDER)
  | none => none

/-- "Less or equal" on sort keys where `none` models `float('inf')`. -/
def keyInfLe : Option Nat → Option Nat → Bool
  | some a, some b => a ≤ b
  | some _, none => true
  | none, some _ => false
  | none, none => true

/-- Stable insertion of `x` into a key-sorted list: `x` goes after every
element whose key is `≤` its own, as Python's stable `sorted` does. -/
def insertStable (le : α → α → Bool) (x : α) : List α → List α
  | [] => [x]
  | y :: ys => if le y x then y :: insertStable le x ys else x :: y :: ys

/-- Stable sort (the result of Python's `sorted(l, key=...)`, whose stable
order is unique given a total preorder on keys). -/
def sortedStable (le : α → α → Bool) (l : List α) : List α :=
  l.foldl (fun acc x => insertStable le x acc) []

/-- Python `sorted(files, key=key_canon)`. -/
def sortCanon (files : List (List Char)) : List (List Char) :=
  sortedStable (fun a b => keyInfLe (key_canon a) (key_canon b)) files

/-- Python `sorted(items, key=key_natural)`. -/
def sortNatural (items : List (List Char)) : List (List Char) :=
  sortedStable (fun a b => kListLe (key_natural a) (key_natural b)) items

/-- `key_supplied` from sort.py with its hidden counter state made explicit:
the function attribute `key_supplied.counter` is initialised to 0 the first
time the function is ever called and is incremented on every call; the call
returns the incremented counter.  State threading: given the current counter
value, return (key, new counter value). -/
def key_supplied (counter : Nat) : Nat × Nat :=
  (counter + 1, counter + 1)

/-- Calling `key_supplied` once per item of a list (as one `sorted` run
does), threading the process-wide counter; returns the assigned keys and the
counter value left behind for the next run. -/
def keySuppliedRun (counter : Nat) : List α → List Nat × Nat
  | [] => ([], counter)
  | _ :: xs =>
    let k := key_supplied counter
    let rest := keySuppliedRun k.2 xs
    (k.1 :: rest.1, rest.2)

/- ------------------------------------------------------------------ -/
/- osis_reorder_and_cleanup (convert.py), from the deletion of Unicode -/
/- non-characters (line 1223) to the end of ConvertToOSIS.             -/
/- ------------------------------------------------------------------ -/

/-- The Unicode non-characters U+FDD0 … U+FDEF deleted by the cleanup pass
(the 32-character string iterated by the `for c in '﷐…﷯'` loop). -/
def NONCHARACTERS : List Char := (List.range' 0xFDD0 32).map Char.ofNat

/-- The `osis = osis.replace(c, '')` loop over the non-characters. -/
def deleteNonChars (osis : List Char) : List Char :=
  NONCHARACTERS.foldl (fun o c => eraseChar c o) osis

/-- Closing-tag literal `</tag>`. -/
def closeLit (tag : List Char) : List Char := '<' :: '/' :: (tag ++ ['>'])

/-- One step of `re.sub('\s+</'+b+'>', '</'+b+'>\n', osis)`: a whitespace run
immediately preceding `</b>` is replaced together with the tag by `</b>\n`
(the greedy `\s+` can only match the full run, since `<` is not whitespace). -/
def subWsCloseFuel (tag : List Char) : Nat → List Char → List Char
  | 0, s => s
  | _ + 1, [] => []
  | fuel + 1, c :: cs =>
    if pySpace c then
      let run := cs.takeWhile pySpace
      let rest := cs.drop run.length
      if startsWith (closeLit tag) rest then
        closeLit tag ++ '\n' :: subWsCloseFuel tag fuel (rest.drop (closeLit tag).length)
      else c :: subWsCloseFuel tag fuel cs
    else c :: subWsCloseFuel tag fuel cs

def subWsClose (tag s : List Char) : List Char := subWsCloseFuel tag s.length s

/-- Opening literal `<tag eID=` of the pattern `\s+<'+b+'( eID=[^/>]+/>)`. -/
def eidLit (tag : List Char) : List Char := '<' :: (tag ++ (" eID=".data))

/-- `re.sub('\s+<'+b+'( eID=[^/>]+/>)', '<'+b+'\1\n', osis)`: the greedy
`[^/>]+` runs to the first `/` or `>`, which must begin a `/>`. -/
def subWsEidFuel (tag : List Char) : Nat → List Char → List Char
  | 0, s => s
  | _ + 1, [] => []
  | fuel + 1, c :: cs =>
    if pySpace c then
      let run := cs.takeWhile pySpace
      let rest := cs.drop run.length
      if startsWith (eidLit tag) rest then
        let after := rest.drop (eidLit tag).length
        let seg := after.takeWhile (fun d => !(d = '/' || d = '>'))
        let after2 := after.drop seg.length
        if !seg.isEmpty && startsWith ("/>".data) after2 then
          eidLit tag ++ seg ++ '/' :: '>' :: '\n' ::
            subWsEidFuel tag fuel (after2.drop 2)
        else c :: subWsEidFuel tag fuel cs
      else c :: subWsEidFuel tag fuel cs
    else c :: subWsEidFuel tag fuel cs

def subWsEid (tag s : List Char) : List Char := subWsEidFuel tag s.length s

/-- One closing tag `</[^>]+>` at the head of `s`: returns the matched text
and the remainder. -/
def parseOneClose (s : List Char) : Option (List Char × List Char) :=
  if startsWith ("</".data) s then
    let after := s.drop 2
    let run := after.takeWhile (fun d => d ≠ '>')
    if run.isEmpty || (after.drop run.length).isEmpty then none
    else some ('<' :: '/' :: (run ++ ['>']), (after.drop run.length).drop 1)
  else none

/-- The greedy `(</[^>]+>)+`: as many closing tags as possible (at least
one). -/
def parseCloseSeq : Nat → List Char → Option (List Char × List Char)
  | 0, _ => none
  | fuel + 1, s =>
    match parseOneClose s with
    | none => none
    | some (t, rest) =>
      match parseCloseSeq fuel rest with
      | some (ts, rest') => some (t ++ ts, rest')
      | none => some (t, rest)

/-- `re.sub(' +((</[^>]+>)+) *', r'\1 ', osis)`: spaces before a run of
closing tags are deleted and trailing spaces collapse to a single space. -/
def subCloseRunFuel : Nat → List Char → List Char
  | 0, s => s
  | _ + 1, [] => []
  | fuel + 1, c :: cs =>
    if c = ' ' then
      let sp := cs.takeWhile (fun d => d = ' ')
      let rest := cs.drop sp.length
      match parseCloseSeq (fuel + 1) rest with
      | some (g, rest') =>
          g ++ ' ' :: subCloseRunFuel fuel (rest'.drop (rest'.takeWhile (fun d => d = ' ')).length)
      | none => c :: subCloseRunFuel fuel cs
    else c :: subCloseRunFuel fuel cs

def subCloseRun (s : List Char) : List Char := subCloseRunFuel s.length s

/-- `re.sub('  +', ' ', osis)`: runs of two or more spaces become one. -/
def subMultiSpaceFuel : Nat → List Char → List Char
  | 0, s => s
  | _ + 1, [] => []
  | fuel + 1, c :: cs =>
    if c = ' ' && startsWith [' '] cs then
      ' ' :: subMultiSpaceFuel fuel (cs.drop (cs.takeWhile (fun d => d = ' ')).length)
    else c :: subMultiSpaceFuel fuel cs

def subMultiSpace (s : List Char) : List Char := subMultiSpaceFuel s.length s

/-- `re.sub(' ?\n\n+', '\n', osis)`: an optional space followed by two or
more newlines becomes a single newline. -/
def subSpaceNLFuel : Nat → List Char → List Char
  | 0, s => s
  | _ + 1, [] => []
  | fuel + 1, c :: cs =>
    if c = ' ' && startsWith ['\n', '\n'] cs then
      '\n' :: subSpaceNLFuel fuel (cs.drop (cs.takeWhile (fun d => d = '\n')).length)
    else if c = '\n' && startsWith ['\n'] cs then
      '\n' :: subSpaceNLFuel fuel (cs.drop (cs.takeWhile (fun d => d = '\n')).length)
    else c :: subSpaceNLFuel fuel cs

def subSpaceNL (s : List Char) : List Char := subSpaceNLFuel s.length s

/-- The `end_block` list of the cleanup loop. -/
def END_BLOCKS : List (List Char) :=
  ["p".data, "div".data, "note".data, "l".data, "lg".data, "chapter".data,
   "verse".data, "head".data, "title".data, "item".data, "list".data]

/-- The `for end_block in [...]` loop: both substitutions for each tag. -/
def endBlockPass (osis : List Char) : List Char :=
  END_BLOCKS.foldl (fun o b => subWsEid b (subWsClose b o)) osis

/-- Modelled from the spec: `SPECIAL_BOOKS` from the bookdata module (absent
from src/), the list of non-canonical ("special") books — front/back matter,
glossary, concordance, etc. -/
def SPECIAL_BOOKS : List (List Char) :=
  ["FRT".data, "INT".data, "BAK".data, "CNC".data, "GLO".data,
   "TDX".data, "NDX".data, "OTH".data]

/-- Replacement text of the special-book retyping loop at the end of
`ConvertToOSIS`. -/
def sbRepl (sb : List Char) : List Char :=
  ("<div type=\"".data) ++ sb.map Char.toLower ++ ("\">".data)

/-- Search text of the special-book retyping loop. -/
def sbPat (sb : List Char) : List Char :=
  ("<div type=\"book\" osisID=\"".data) ++ sb ++ ("\">".data)

/-- The `for sb in SPECIAL_BOOKS: osis.replace(...)` loop at the end of
`ConvertToOSIS`. -/
def specialBooksPass (osis : List Char) : List Char :=
  SPECIAL_BOOKS.foldl (fun o sb => replaceLit (sbPat sb) (sbRepl sb) o) osis

/-- The tail of the conversion pipeline, from the deletion of the scope
markers (convert.py line 1223) through the final special-book retyping:
everything `ConvertToOSIS` still does to the text after the marker-deletion
loop runs. -/
def cleanupFromMarkerDeletion (osis : List Char) : List Char :=
  specialBooksPass (subSpaceNL (subMultiSpace (subCloseRun (endBlockPass (deleteNonChars osis)))))

/-- Boolean statement that a text contains no scope-marker code point. -/
def noMarkers (s : List Char) : Bool := s.all (fun c => !isScopeMarker c)

/- ------------------------------------------------------------------ -/
/- process_osisIDs (convert.py lines 1129-1196): verse range/series    -/
/- expansion and book/chapter placeholder resolution.                  -/
/- ------------------------------------------------------------------ -/

/-- The book-boundary scope marker U+FDD0. -/
def FDD0 : Char := Char.ofNat 0xFDD0

/-- The chapter-boundary scope marker U+FDD1. -/
def FDD1 : Char := Char.ofNat 0xFDD1

/-- The book identifier placeholder token `$BOOK$`. -/
def bookTokL : List Char := ['$', 'B', 'O', 'O', 'K', '$']

/-- The chapter identifier placeholder token `$CHAP$`. -/
def chapTokL : List Char := ['$', 'C', 'H', 'A', 'P', '$']

/-- The placeholder identifier stem `$BOOK$.$CHAP$.` of the range/series
patterns. -/
def idStem : List Char := bookTokL ++ '.' :: chapTokL ++ ['.']

/-- Prepending a digit to the runs of the rest of a string: the digit joins
the first run when the next character is also a digit, and starts its own
run otherwise. -/
def consRun (c : Char) (cs : List Char) (runs : List (List Char)) :
    List (List Char) :=
  match cs, runs with
  | d :: _, r :: rs => if pyDigit d then (c :: r) :: rs else [c] :: r :: rs
  | _, rl => [c] :: rl

/-- `re.findall(r'\d+', s)`: the maximal runs of digits in `s`. -/
def digitRuns : List Char → List (List Char)
  | [] => []
  | c :: cs => if pyDigit c then consRun c cs (digitRuns cs) else digitRuns cs

/-- `int(s)` for a string of decimal digits. -/
def toNatDigits (s : List Char) : Nat :=
  s.foldl (fun n c => n * 10 + (c.toNat - '0'.toNat)) 0

/-- Python `sep.join(parts)`. -/
def joinWith (sep : List Char) : List (List Char) → List Char
  | [] => []
  | [r] => r
  | r :: rs => r ++ sep ++ joinWith sep rs

/-- `expand_range` from process_osisIDs: `re.findall(r'\d+', v_range)` yields
the two bounds; `range(int(lo), int(hi)+1)` enumerates the verse numbers
(empty when the range descends), each rendered as `$BOOK$.$CHAP$.n` and
joined with spaces.  `none` models the IndexError raised when the argument
holds fewer than two digit runs (the caller's pattern guarantees two). -/
def expand_range (v_range : List Char) : Option (List Char) :=
  match digitRuns v_range with
  | a :: b :: _ =>
      some (joinWith [' ']
        ((List.range' (toNatDigits a) (toNatDigits b + 1 - toNatDigits a)).map
          (fun n => idStem ++ (Nat.repr n).data)))
  | _ => none

/-- `expand_series` from process_osisIDs: each digit run of the series is
rendered as `$BOOK$.$CHAP$.n` (with `str(n)` the run text itself) and the
results joined with spaces, in the given order. -/
def expand_series (v_series : List Char) : List Char :=
  joinWith [' '] ((digitRuns v_series).map (fun n => idStem ++ n))

/-- `re.sub(r'\$BOOK\$\.\$CHAP\$\.(\d+-\d+)"', expand_range(म)+'"', osis)`:
the scan locates the literal stem followed by `digits-digits"` and replaces
stem and range by the expansion (the quote is re-emitted). -/
def subRangeFuel : Nat → List Char → List Char
  | 0, s => s
  | _ + 1, [] => []
  | fuel + 1, c :: cs =>
    if startsWith idStem (c :: cs) then
      let after := (c :: cs).drop idStem.length
      let d1 := after.takeWhile pyDigit
      let after1 := after.drop d1.length
      if !d1.isEmpty && startsWith ['-'] after1 then
        let d2 := (after1.drop 1).takeWhile pyDigit
        let after2 := (after1.drop 1).drop d2.length
        if !d2.isEmpty && startsWith ['"'] after2 then
          match expand_range (d1 ++ '-' :: d2) with
          | some e => e ++ '"' :: subRangeFuel fuel (after2.drop 1)
          | none => c :: subRangeFuel fuel cs
        else c :: subRangeFuel fuel cs
      else c :: subRangeFuel fuel cs
    else c :: subRangeFuel fuel cs

def subRange (s : List Char) : List Char := subRangeFuel s.length s

/-- The greedy `(,\d+)+` of the series pattern: one or more comma-digit
groups. -/
def parseSeriesTail : Nat → List Char → Option (List Char × List Char)
  | 0, _ => none
  | fuel + 1, s =>
    if startsWith [','] s then
      let d := (s.drop 1).takeWhile pyDigit
      if d.isEmpty then none
      else
        match parseSeriesTail fuel ((s.drop 1).drop d.length) with
        | some (t, rest) => some (',' :: (d ++ t), rest)
        | none => some (',' :: d, (s.drop 1).drop d.length)
    else none

/-- `re.sub(r'\$BOOK\$\.\$CHAP\$\.(\d+(,\d+)+)"', expand_series(म)+'"', osis)`. -/
def subSeriesFuel : Nat → List Char → List Char
  | 0, s => s
  | _ + 1, [] => []
  | fuel + 1, c :: cs =>
    if startsWith idStem (c :: cs) then
      let after := (c :: cs).drop idStem.length
      let d1 := after.takeWhile pyDigit
      let after1 := after.drop d1.length
      if !d1.isEmpty then
        match parseSeriesTail (after1.length + 1) after1 with
        | some (t, rest) =>
          if startsWith ['"'] rest then
            expand_series (d1 ++ t) ++ '"' :: subSeriesFuel fuel (rest.drop 1)
          else c :: subSeriesFuel fuel cs
        | none => c :: subSeriesFuel fuel cs
      else c :: subSeriesFuel fuel cs
    else c :: subSeriesFuel fuel cs

def subSeries (s : List Char) : List Char := subSeriesFuel s.length s

/-- The leading literal of the book-opening search pattern
`<div type="book" osisID="([^"]+?)"`. -/
def bookLit : List Char := ("<div type=\"book\" osisID=\"").data

/-- `re.search(r'<div type="book" osisID="([^"]+?)"', bc)`: the lazy
`[^"]+?` captures the non-empty run up to the first following quote, which
must exist; the search tries every start position left to right. -/
def bookSearchFuel : Nat → List Char → Option (List Char)
  | 0, _ => none
  | _ + 1, [] => none
  | fuel + 1, c :: cs =>
    if startsWith bookLit (c :: cs) then
      let after := (c :: cs).drop bookLit.length
      let cap := after.takeWhile (fun d => d ≠ '"')
      if !cap.isEmpty && !(after.drop cap.length).isEmpty then some cap
      else bookSearchFuel fuel cs
    else bookSearchFuel fuel cs

def bookSearch (s : List Char) : Option (List Char) :=
  bookSearchFuel (s.length + 1) s

/-- The leading literal of the chapter search pattern
`<chapter osisID="[^\."]+\.([^"]+)`. -/
def chapLit : List Char := ("<chapter osisID=\"").data

/-- `re.search(r'<chapter osisID="[^\."]+\.([^"]+)', cc)`: a non-empty run
without dots or quotes, a dot, then the non-empty capture up to the next
quote or the end of the chunk. -/
def chapSearchFuel : Nat → List Char → Option (List Char)
  | 0, _ => none
  | _ + 1, [] => none
  | fuel + 1, c :: cs =>
    if startsWith chapLit (c :: cs) then
      let after := (c :: cs).drop chapLit.length
      let run := after.takeWhile (fun d => !(d = '.' || d = '"'))
      let after1 := after.drop run.length
      if !run.isEmpty && startsWith ['.'] after1 then
        let cap := (after1.drop 1).takeWhile (fun d => d ≠ '"')
        if !cap.isEmpty then some cap
        else chapSearchFuel fuel cs
      else chapSearchFuel fuel cs
    else chapSearchFuel fuel cs

def chapSearch (s : List Char) : Option (List Char) :=
  chapSearchFuel (s.length + 1) s

/-- `bc.replace('$BOOK$', book_value)`: leftmost non-overlapping
replacement of the book placeholder. -/
def replaceBook (v : List Char) (s : List Char) : List Char :=
  replaceLitFuel bookTokL v s.length s

/-- `cc.replace('$CHAP$', chap_value)`. -/
def replaceChap (w : List Char) (s : List Char) : List Char :=
  replaceLitFuel chapTokL w s.length s

/-- One chapter chunk of the placeholder-resolution loop: substitute the
chapter number when the chunk carries a chapter osisID. -/
def processChapChunk (cc : List Char) : List Char :=
  match chapSearch cc with
  | some w => replaceChap w cc
  | none => cc

/-- One book chunk of the placeholder-resolution loop: substitute the book
identifier and recurse into chapter chunks when the chunk carries a
book-opening element, else pass the chunk through unresolved. -/
def processBookChunk (bc : List Char) : List Char :=
  match bookSearch bc with
  | some v =>
      (((splitOnChar FDD1 (replaceBook v bc)).map processChapChunk).flatten)
  | none => bc

/-- The `fill in book & chapter values` loop of process_osisIDs: split at
book markers, resolve each chunk, and concatenate (the split drops the
marker characters, as Python's `str.split` does). -/
def fill_osisIDs (osis : List Char) : List Char :=
  ((splitOnChar FDD0 osis).map processBookChunk).flatten

/-- `process_osisIDs`: range expansion, then series expansion, then the
placeholder-resolution loop. -/
def process_osisIDs (osis : List Char) : List Char :=
  fill_osisIDs (subSeries (subRange osis))

/-- Boolean statement that a text contains no `$` (hence no placeholder). -/
def noDollar (s : List Char) : Bool := !s.contains '$'

/-- Boolean substring test by scanning all start positions. -/
def containsSub (pat : List Char) : List Char → Bool
  | [] => startsWith pat []
  | c :: cs => startsWith pat (c :: cs) || containsSub pat cs

/- Segment decompositions of well-formed intermediate documents: every `$`
of the text belongs to a complete placeholder token. -/

inductive Seg where
  | plain : List Char → Seg
  | bookTok : Seg
  | chapTok : Seg
deriving DecidableEq, Repr

/-- The text of a segment list. -/
def segText : List Seg → List Char
  | [] => []
  | Seg.plain s :: rest => s ++ segText rest
  | Seg.bookTok :: rest => bookTokL ++ segText rest
  | Seg.chapTok :: rest => chapTokL ++ segText rest

/-- Well-formedness of a decomposition: plain segments are `$`-free, and the
text following a chapter token never begins with `BOOK$` (which would let
the book replacement consume the chapter token's closing `$`). -/
def goodSegs : List Seg → Bool
  | [] => true
  | Seg.plain s :: rest => noDollar s && goodSegs rest
  | Seg.bookTok :: rest => goodSegs rest
  | Seg.chapTok :: rest => !startsWith ("BOOK$".data) (segText rest) && goodSegs rest

/-- Substituting the book value for every book token. -/
def substBook (v : List Char) : List Seg → List Seg
  | [] => []
  | Seg.bookTok :: rest => Seg.plain v :: substBook v rest
  | seg :: rest => seg :: substBook v rest

/-- Substituting the chapter value for every chapter token. -/
def substChap (w : List Char) : List Seg → List Seg
  | [] => []
  | Seg.chapTok :: rest => Seg.plain w :: substChap w rest
  | seg :: rest => seg :: substChap w rest

/-- Does the segment list contain a chapter token? -/
def hasChapTok : List Seg → Bool
  | [] => false
  | Seg.chapTok :: _ => true
  | _ :: rest => hasChapTok rest

/-- When a plain segment splits into pieces, the head chunk continues with
the following chunk only after the last piece. -/
def headChunk : List (List Char) → List Seg → List Seg
  | [], h => h
  | _ :: _, _ => []

/-- Chunks contributed by the later pieces of a split plain segment. -/
def tailChunks : List (List Char) → List Seg → List (List Seg) → List (List Seg)
  | [], _, t => t
  | p :: ps, h, t => (Seg.plain p :: headChunk ps h) :: tailChunks ps h t

/-- Splitting a segment list at the chapter-boundary marker occurrences
inside its plain segments, mirroring `str.split` on the text. -/
def splitSegs : List Seg → List (List Seg)
  | [] => [[]]
  | Seg.plain s :: rest =>
    match splitSegs rest with
    | [] => [[Seg.plain s]]
    | h :: t =>
      match splitOnChar FDD1 s with
      | [] => (Seg.plain s :: h) :: t
      | p :: ps => (Seg.plain p :: headChunk ps h) :: tailChunks ps h t
  | seg :: rest =>
    match splitSegs rest with
    | [] => [[seg]]
    | h :: t => (seg :: h) :: t

/-- A chapter chunk is resolvable when the chapter search yields a `$`-free
value, or when it holds no chapter placeholder at all. -/
def chapResolvable (p : List Seg) : Bool :=
  match chapSearch (segText p) with
  | some w => noDollar w
  | none => !hasChapTok p

/-- Every plain segment is `$`-free and no book token remains (the shape of
a chunk after the book substitution). -/
def chapOnlyOK : List Seg → Bool
  | [] => true
  | Seg.plain s :: rest => noDollar s && chapOnlyOK rest
  | Seg.chapTok :: rest => chapOnlyOK rest
  | Seg.bookTok :: _ => false

/-- Text-level combination of the split pieces of a left part with the split
of the right part (the shape of `splitOnChar` over an append): the last
piece of the left part fuses with the first piece of the right part. -/
def combineText : List Char → List (List Char) → List Char →
    List (List Char) → List (List Char)
  | p, [], h, t => (p ++ h) :: t
  | p, p2 :: ps, h, t => p :: combineText p2 ps h t

/- ------------------------------------------------------------------ -/
/- cvt_poetry and cvt_spacing_and_breaks (convert.py).                 -/
/- ------------------------------------------------------------------ -/

/-- The scope marker U+FDD3 (paragraph kind). -/
def FDD3 : Char := Char.ofNat 0xFDD3

/-- The scope marker U+FDD4 (title kind). -/
def FDD4 : Char := Char.ofNat 0xFDD4

/-- The Python `\w` class (ASCII portion): letters, digits, underscore. -/
def isWordChar (c : Char) : Bool := c.isAlphanum || c = '_'

/-- Word boundary `\b` between a word character `w` and the following
text. -/
def boundaryNext (w : Char) (t : List Char) : Bool :=
  match t with
  | [] => isWordChar w
  | d :: _ => isWordChar w != isWordChar d

/-- The character class of the poetry lookahead and of the line-group
wrapping pattern: the scope markers U+FDD0, U+FDD1 and U+FDD3 … U+FDDE. -/
def poetryMarker (c : Char) : Bool :=
  c = FDD0 || c = FDD1 || (0xFDD3 ≤ c.toNat && c.toNat ≤ 0xFDDE)

/-- The lookahead alternative `\\(q\d?|fig)\b`. -/
def laBackslashQFig (s : List Char) : Bool :=
  match s with
  | '\\' :: r =>
    (startsWith ("fig".data) r && boundaryNext 'g' (r.drop 3))
    || (match r with
        | 'q' :: r' =>
          (match r' with
           | d :: r'' => if pyDigit d then boundaryNext d r'' else boundaryNext 'q' r'
           | [] => true)
        | _ => false)
  | _ => false

/-- The lookahead alternative `<(l|lb|title|list|/?div)\b`. -/
def laAngleElem (s : List Char) : Bool :=
  match s with
  | '<' :: r =>
    (startsWith ("lb".data) r && boundaryNext 'b' (r.drop 2))
    || (startsWith ("l".data) r && boundaryNext 'l' (r.drop 1))
    || (startsWith ("title".data) r && boundaryNext 'e' (r.drop 5))
    || (startsWith ("list".data) r && boundaryNext 't' (r.drop 4))
    || (startsWith ("div".data) r && boundaryNext 'v' (r.drop 3))
    || (startsWith ("/div".data) r && boundaryNext 'v' (r.drop 4))
  | _ => false

/-- The full lookahead of the `\q#`, `\qr`, `\qc`, `\qm#` patterns. -/
def poetryLA (s : List Char) : Bool :=
  (match s with | c :: _ => poetryMarker c | [] => false)
  || laBackslashQFig s || laAngleElem s

/-- Lazy scan for the earliest position satisfying the lookahead `la`,
returning the consumed text and the remainder from that position. -/
def splitAtLA (la : List Char → Bool) : Nat → List Char → Option (List Char × List Char)
  | 0, _ => none
  | fuel + 1, s =>
    if la s then some ([], s)
    else
      match s with
      | [] => none
      | c :: cs =>
        match splitAtLA la fuel cs with
        | some (content, rest) => some (c :: content, rest)
        | none => none

/-- Lazy scan for the earliest occurrence of a literal terminator, returning
the consumed text and the remainder after the terminator. -/
def splitAtLit (term : List Char) : Nat → List Char → Option (List Char × List Char)
  | 0, _ => none
  | fuel + 1, s =>
    if startsWith term s then some ([], s.drop term.length)
    else
      match s with
      | [] => none
      | c :: cs =>
        match splitAtLit term fuel cs with
        | some (content, rest) => some (c :: content, rest)
        | none => none

/-- `re.sub(r'\\qa\s+(.+)', '﷔<title type="acrostic">\1</title>', osis)`
(no DOTALL): the whitespace run may cross line breaks; the contents reach to
the end of the line; when nothing follows the run, the greedy `\s+` gives
back its final character (if that character is not itself a newline) to
satisfy `(.+)`. -/
def subQaFuel : Nat → List Char → List Char
  | 0, s => s
  | _ + 1, [] => []
  | fuel + 1, c :: cs =>
    if startsWith ("\\qa".data) (c :: cs) then
      let after := cs.drop 2
      let ws := after.takeWhile pySpace
      let rest := after.drop ws.length
      if ws.isEmpty then c :: subQaFuel fuel cs
      else
        match rest with
        | r :: _ =>
          let content := (r :: rest.tail).takeWhile (fun d => d ≠ '\n')
          FDD4 :: ("<title type=\"acrostic\">".data) ++ content ++ ("</title>".data)
            ++ subQaFuel fuel (rest.drop content.length)
        | [] =>
          if 2 ≤ ws.length && ws.getLast? ≠ some '\n' then
            FDD4 :: ("<title type=\"acrostic\">".data) ++ ws.drop (ws.length - 1)
              ++ ("</title>".data) ++ subQaFuel fuel []
          else c :: subQaFuel fuel cs
    else c :: subQaFuel fuel cs

def subQa (s : List Char) : List Char := subQaFuel s.length s

/-- `re.sub(r'\\qac\s+(.+?)\\qac\*', '<hi type="acrostic">\1</hi>', osis,
DOTALL)`. -/
def subQacFuel : Nat → List Char → List Char
  | 0, s => s
  | _ + 1, [] => []
  | fuel + 1, c :: cs =>
    if startsWith ("\\qac".data) (c :: cs) then
      let after := cs.drop 3
      let ws := after.takeWhile pySpace
      let rest := after.drop ws.length
      if ws.isEmpty then c :: subQacFuel fuel cs
      else
        match rest with
        | r :: rs =>
          match splitAtLit ("\\qac*".data) (rs.length + 1) rs with
          | some (content, rest') =>
            ("<hi type=\"acrostic\">".data) ++ r :: content ++ ("</hi>".data)
              ++ subQacFuel fuel rest'
          | none => c :: subQacFuel fuel cs
        | [] => c :: subQacFuel fuel cs
    else c :: subQacFuel fuel cs

def subQac (s : List Char) : List Char := subQacFuel s.length s

/-- `re.sub(r'\\qs\b\s(.+?)\\qs\*', '<l type="selah">\1</l>', osis,
DOTALL)`: a single whitespace character after the tag. -/
def subQsFuel : Nat → List Char → List Char
  | 0, s => s
  | _ + 1, [] => []
  | fuel + 1, c :: cs =>
    if startsWith ("\\qs".data) (c :: cs) && boundaryNext 's' (cs.drop 2) then
      match cs.drop 2 with
      | w :: rest =>
        if pySpace w then
          match rest with
          | r :: rs =>
            match splitAtLit ("\\qs*".data) (rs.length + 1) rs with
            | some (content, rest') =>
              ("<l type=\"selah\">".data) ++ r :: content ++ ("</l>".data)
                ++ subQsFuel fuel rest'
            | none => c :: subQsFuel fuel cs
          | [] => c :: subQsFuel fuel cs
        else c :: subQsFuel fuel cs
      | [] => c :: subQsFuel fuel cs
    else c :: subQsFuel fuel cs

def subQs (s : List Char) : List Char := subQsFuel s.length s

/-- `re.sub(r'\\q\b\s*(.*?)(?=…)', '<l level="1">\1</l>', osis, DOTALL)`:
possibly-empty lazy contents delimited by the poetry lookahead; no match at
all when the lookahead never holds before the end of the text. -/
def subQFuel : Nat → List Char → List Char
  | 0, s => s
  | _ + 1, [] => []
  | fuel + 1, c :: cs =>
    if startsWith ("\\q".data) (c :: cs) && boundaryNext 'q' (cs.drop 1) then
      let r := cs.drop 1
      let body := r.drop (r.takeWhile pySpace).length
      match splitAtLA poetryLA (body.length + 1) body with
      | some (content, rest') =>
        ("<l level=\"1\">".data) ++ content ++ ("</l>".data) ++ subQFuel fuel rest'
      | none => c :: subQFuel fuel cs
    else c :: subQFuel fuel cs

def subQ (s : List Char) : List Char := subQFuel s.length s

/-- `re.sub(r'\\q(\d)\b\s*(.*?)(?=…)', '<l level="\1">\2</l>', osis,
DOTALL)`. -/
def subQnFuel : Nat → List Char → List Char
  | 0, s => s
  | _ + 1, [] => []
  | fuel + 1, c :: cs =>
    if startsWith ("\\q".data) (c :: cs) then
      match cs.drop 1 with
      | d :: r =>
        if pyDigit d && boundaryNext d r then
          let body := r.drop (r.takeWhile pySpace).length
          match splitAtLA poetryLA (body.length + 1) body with
          | some (content, rest') =>
            ("<l level=\"".data) ++ d :: ("\">".data) ++ content ++ ("</l>".data)
              ++ subQnFuel fuel rest'
          | none => c :: subQnFuel fuel cs
        else c :: subQnFuel fuel cs
      | [] => c :: subQnFuel fuel cs
    else c :: subQnFuel fuel cs

def subQn (s : List Char) : List Char := subQnFuel s.length s

/-- The alternation `(qr|qc|qm\d)` with its trailing word boundary. -/
def qTagMatch (r : List Char) : Option (List Char × List Char) :=
  if startsWith ("qr".data) r && boundaryNext 'r' (r.drop 2) then
    some (("qr".data), r.drop 2)
  else if startsWith ("qc".data) r && boundaryNext 'c' (r.drop 2) then
    some (("qc".data), r.drop 2)
  else
    match r with
    | 'q' :: 'm' :: d :: r' =>
      if pyDigit d && boundaryNext d r' then some (['q', 'm', d], r') else none
    | _ => none

/-- The `qType` dictionary of cvt_poetry (an access with a key outside the
table raises, modelled by `none`; the unnumbered key `'qm'` is present in
the table but unreachable, since the pattern only admits `qm\d`). -/
def qTypeLookup (tag : List Char) : Option (List Char) :=
  if tag = ("qr".data) then some ("x-right".data)
  else if tag = ("qc".data) then some ("x-center".data)
  else if tag = ("qm1".data) then some ("x-embedded\" level=\"1".data)
  else if tag = ("qm2".data) then some ("x-embedded\" level=\"2".data)
  else if tag = ("qm3".data) then some ("x-embedded\" level=\"3".data)
  else if tag = ("qm4".data) then some ("x-embedded\" level=\"4".data)
  else if tag = ("qm5".data) then some ("x-embedded\" level=\"5".data)
  else none

/-- `re.sub(r'\\(qr|qc|qm\d)\b\s*(.*?)(?=…)', '<l type="$">\2</l>', osis,
DOTALL)`, where `$` is the `qType` entry of the matched tag. -/
def subQrQcQmFuel : Nat → List Char → Option (List Char)
  | 0, s => some s
  | _ + 1, [] => some []
  | fuel + 1, c :: cs =>
    if c = '\\' then
      match qTagMatch cs with
      | some (tag, r) =>
        let body := r.drop (r.takeWhile pySpace).length
        match splitAtLA poetryLA (body.length + 1) body with
        | some (content, rest') =>
          match qTypeLookup tag with
          | some ty =>
            (subQrQcQmFuel fuel rest').map (fun t =>
              ("<l type=\"".data) ++ ty ++ ("\">".data) ++ content
                ++ ("</l>".data) ++ t)
          | none => none
        | none => (subQrQcQmFuel fuel cs).map (fun t => c :: t)
      | none => (subQrQcQmFuel fuel cs).map (fun t => c :: t)
    else (subQrQcQmFuel fuel cs).map (fun t => c :: t)

def subQrQcQm (s : List Char) : Option (List Char) := subQrQcQmFuel s.length s

/-- The largest split position `j ≥ 1` of `u` such that `lit` occurs at `j`
(the greedy `[^…]+` backtracking to the last terminator). -/
def lastLitPos (lit u : List Char) : Option Nat :=
  ((List.range (u.length + 1)).filter
    (fun j => 1 ≤ j && startsWith lit (u.drop j))).getLast?

/-- `re.sub('(<l [^…]+</l>)', '<lg>\1</lg>', osis, DOTALL)`: a `<l ` span
of marker-free characters up to the last `</l>` before the next marker is
wrapped in `<lg>…</lg>`; consecutive `<l>` elements are thereby grouped
into a single line group. -/
def lgWrapFuel : Nat → List Char → List Char
  | 0, s => s
  | _ + 1, [] => []
  | fuel + 1, c :: cs =>
    if startsWith ("<l ".data) (c :: cs) then
      let after := cs.drop 2
      let u := after.takeWhile (fun d => !poetryMarker d)
      match lastLitPos ("</l>".data) u with
      | some j =>
        ("<lg><l ".data) ++ u.take j ++ ("</l></lg>".data)
          ++ lgWrapFuel fuel (after.drop (j + 4))
      | none => c :: lgWrapFuel fuel cs
    else c :: lgWrapFuel fuel cs

def lgWrap (s : List Char) : List Char := lgWrapFuel s.length s

/-- `re.sub('(<lg>.+?</lg>)', λ g, g.replace('<lb type="x-p"/>',
'</lg><lg>'), osis, DOTALL)`: re-handle `\b` line breaks inside a line
group. -/
def lgInternalFuel : Nat → List Char → List Char
  | 0, s => s
  | _ + 1, [] => []
  | fuel + 1, c :: cs =>
    if startsWith ("<lg>".data) (c :: cs) then
      match cs.drop 3 with
      | r :: rs =>
        match splitAtLit ("</lg>".data) (rs.length + 1) rs with
        | some (content, rest') =>
          replaceLit ("<lb type=\"x-p\"/>".data) ("</lg><lg>".data)
            (("<lg>".data) ++ r :: content ++ ("</lg>".data))
            ++ lgInternalFuel fuel rest'
        | none => c :: lgInternalFuel fuel cs
      | [] => c :: lgInternalFuel fuel cs
    else c :: lgInternalFuel fuel cs

def lgInternal (s : List Char) : List Char := lgInternalFuel s.length s

/-- `cvt_poetry`: the poetry stage, rewriting `\qa`, `\qac`, `\qs`, `\q#`,
`\qr`, `\qc`, `\qm#`, then moving line breaks out of `</l>`, wrapping bare
`<l …</l>` spans into line groups, and re-handling `\b` breaks inside line
groups.  `none` models the KeyError raised on a `qm` level outside 1–5. -/
def cvt_poetry (osis : List Char) : Option (List Char) :=
  (subQrQcQm (subQn (subQ (subQs (subQac (subQa osis)))))).map (fun t =>
    lgInternal (lgWrap (replaceLit ("\n</l>".data) ("</l>\n".data) t)))

/-- `re.sub(r'\\pb\s*', '<milestone type="pb"/>\n', osis, DOTALL)`. -/
def subPbFuel : Nat → List Char → List Char
  | 0, s => s
  | _ + 1, [] => []
  | fuel + 1, c :: cs =>
    if startsWith ("\\pb".data) (c :: cs) then
      ("<milestone type=\"pb\"/>\n".data)
        ++ subPbFuel fuel ((cs.drop 2).drop ((cs.drop 2).takeWhile pySpace).length)
    else c :: subPbFuel fuel cs

def subPb (s : List Char) : List Char := subPbFuel s.length s

/-- `cvt_spacing_and_breaks`: `~` becomes a non-breaking space, `//` an
optional line break, `\pb` a page-break milestone. -/
def cvt_spacing_and_breaks (osis : List Char) : List Char :=
  subPb (replaceLit ("//".data) ("<lb type=\"x-optional\"/>".data)
    (replaceLit ['~'] ['\u00A0'] osis))

/- ------------------------------------------------------------------ -/
/- cvt_chapters_and_verses (convert.py line 352): the `\c` rewrite.    -/
/- ------------------------------------------------------------------ -/

/-- The lookahead `(?=(\\c\s+|</div type="book"))` of the chapter
pattern. -/
def chapterLA (s : List Char) : Bool :=
  (startsWith ['\\', 'c'] s
    && (match s.drop 2 with | d :: _ => pySpace d | [] => false))
  || startsWith ("</div type=\"book\"".data) s

/-- Backtracking of the greedy `([^\s]+)\b` of the chapter pattern: try the
token prefixes of the non-whitespace run from longest to shortest; for each,
the word boundary must hold and the lazy `(.+?)` must reach a lookahead
position after at least one character. -/
def chapTryK (tokRun rest : List Char) : Nat → Option (List Char × List Char × List Char)
  | 0 => none
  | k + 1 =>
    let tok := tokRun.take (k + 1)
    let after := tokRun.drop (k + 1) ++ rest
    match tok.getLast? with
    | some w =>
      if boundaryNext w after then
        match after with
        | [] => chapTryK tokRun rest k
        | c :: cs =>
          match splitAtLA chapterLA (cs.length + 1) cs with
          | some (content, rest') => some (tok, c :: content, rest')
          | none => chapTryK tokRun rest k
      else chapTryK tokRun rest k
    | none => chapTryK tokRun rest k

/-- `re.sub(r'\\c\s+([^\s]+)\b(.+?)(?=(\\c\s+|</div type="book"))',
'﷑<chapter osisID="$BOOK$.\1" sID="$BOOK$.\1"/>\2<chapter
eID="$BOOK$.\1"/>﷓\n', osis, DOTALL)`: the `\c` rewrite of
cvt_chapters_and_verses. -/
def subChapterFuel : Nat → List Char → List Char
  | 0, s => s
  | _ + 1, [] => []
  | fuel + 1, c :: cs =>
    if startsWith ['\\', 'c'] (c :: cs) then
      let after := cs.drop 1
      let ws := after.takeWhile pySpace
      let rest0 := after.drop ws.length
      let tokRun := rest0.takeWhile (fun d => !pySpace d)
      let rest1 := rest0.drop tokRun.length
      if !ws.isEmpty && !tokRun.isEmpty then
        match chapTryK tokRun rest1 tokRun.length with
        | some (tok, content, rest') =>
            FDD1 :: ("<chapter osisID=\"$BOOK$.".data) ++ tok
              ++ ("\" sID=\"$BOOK$.".data) ++ tok ++ ("\"/>".data)
              ++ content
              ++ ("<chapter eID=\"$BOOK$.".data) ++ tok ++ ("\"/>".data)
              ++ FDD3 :: '\n' :: subChapterFuel fuel rest'
        | none => c :: subChapterFuel fuel cs
      else c :: subChapterFuel fuel cs
    else c :: subChapterFuel fuel cs

def subChapter (s : List Char) : List Char := subChapterFuel s.length s

/- ------------------------------------------------------------------ -/
/- cvt_footnotes / cvt_cross_references: the note-building lambdas.    -/
/- ------------------------------------------------------------------ -/

/-- The note-internal scope marker U+FDDF appended before `</note>`. -/
def FDDF : Char := Char.ofNat 0xFDDF

/-- The caller-dependent `n` attribute of the generated `<note>` elements:
caller `-` yields `n=""`, caller `+` yields nothing, any other caller `c`
yields `n="c"` (the shared conditional of the `\f`, `\fe` and `\x`
replacement lambdas). -/
def caller_n_attr (c : List Char) : List Char :=
  if c = ("-").data then (" n=\"\"").data
  else if c = ("+").data then []
  else (" n=\"").data ++ (c ++ ['"'])

/-- The `\f` replacement lambda of cvt_footnotes: the caller group is
optional; a missing caller reaches the string concatenation with `None` and
raises (modelled as `none`). -/
def footnote_repl (caller : Option (List Char)) (payload : List Char) :
    Option (List Char) :=
  match caller with
  | some c => some (("<note").data ++ (caller_n_attr c ++
      ((" placement=\"foot\">").data ++ (payload ++ FDDF :: ("</note>").data))))
  | none => none

/-- The `\fe` replacement lambda of cvt_footnotes (caller required by the
pattern). -/
def endnote_repl (c payload : List Char) : List Char :=
  ("<note").data ++ (caller_n_attr c ++
    ((" placement=\"end\">").data ++ (payload ++ FDDF :: ("</note>").data)))

/-- The `\x` replacement lambda of cvt_cross_references (caller required by
the pattern). -/
def xref_repl (c payload : List Char) : List Char :=
  ("<note").data ++ (caller_n_attr c ++
    ((" type=\"crossReference\">").data ++ (payload ++ FDDF :: ("</note>").data)))

/-- A one-book, one-chapter document fragment as it reaches process_osisIDs,
carrying a verse range `5-7` in chapter 2 of book GEN. -/
def rangeDoc : List Char :=
  ("<div type=\"book\" osisID=\"GEN\">").data ++ FDD1 ::
    ("<chapter osisID=\"$BOOK$.2\"/><verse osisID=\"$BOOK$.$CHAP$.5-7\"/>").data

/-- The resolved form of `rangeDoc`. -/
def rangeDocResolved : List Char :=
  ("<div type=\"book\" osisID=\"GEN\"><chapter osisID=\"GEN.2\"/>" ++
   "<verse osisID=\"GEN.2.5 GEN.2.6 GEN.2.7\"/>").data

/-- A one-book, one-chapter document fragment carrying a verse series
`3,5,9` in chapter 2 of book GEN. -/
def seriesDoc : List Char :=
  ("<div type=\"book\" osisID=\"GEN\">").data ++ FDD1 ::
    ("<chapter osisID=\"$BOOK$.2\"/><verse osisID=\"$BOOK$.$CHAP$.3,5,9\"/>").data

/-- The resolved form of `seriesDoc`. -/
def seriesDocResolved : List Char :=
  ("<div type=\"book\" osisID=\"GEN\"><chapter osisID=\"GEN.2\"/>" ++
   "<verse osisID=\"GEN.2.3 GEN.2.5 GEN.2.9\"/>").data

/-- A one-book intermediate document whose only book chunk carries a
recognizable book-opening element, one chapter boundary, and placeholder
identifiers in the chapter and verse elements. -/
def docC2 : List Char :=
  ("<div type=\"book\" osisID=\"GEN\">\n").data
  ++ [FDD1]
  ++ ("<chapter osisID=\"").data ++ bookTokL
  ++ (".2\"/>\n<verse osisID=\"").data ++ bookTokL
  ++ (".").data ++ chapTokL ++ (".5\"/>").data

/-- The segment decomposition of `docC2`. -/
def segsC2 : List Seg :=
  [Seg.plain (("<div type=\"book\" osisID=\"GEN\">\n").data ++ [FDD1]
      ++ ("<chapter osisID=\"").data),
   Seg.bookTok,
   Seg.plain ((".2\"/>\n<verse osisID=\"").data),
   Seg.bookTok,
   Seg.plain ((".").data),
   Seg.chapTok,
   Seg.plain ((".5\"/>").data)]

/- Marker-freedom lemmas for the cleanup tail. -/

theorem mem_of_takeWhile_mem (p : Char → Bool) :
    ∀ (l : List Char) (a : Char), a ∈ l.takeWhile p → a ∈ l
  | [], a, h => by simp [List.takeWhile] at h
  | c :: cs, a, h => by
      by_cases hc : p c = true
      · rw [List.takeWhile_cons_of_pos hc] at h
        rcases List.mem_cons.mp h with rfl | h'
        · exact List.mem_cons_self _ _
        · exact List.mem_cons_of_mem _ (mem_of_takeWhile_mem p cs a h')
      · rw [List.takeWhile_cons_of_neg (by simpa using hc)] at h
        simp at h

theorem eraseChar_mem (c : Char) :
    ∀ (s : List Char) (d : Char), d ∈ eraseChar c s → d ∈ s ∧ d ≠ c
  | [], d, h => by simp [eraseChar] at h
  | e :: es, d, h => by
      by_cases he : e = c
      · rw [eraseChar, if_pos he] at h
        rcases eraseChar_mem c es d h with ⟨h1, h2⟩
        exact ⟨List.mem_cons_of_mem _ h1, h2⟩
      · rw [eraseChar, if_neg he] at h
        rcases List.mem_cons.mp h with rfl | h'
        · exact ⟨List.mem_cons_self _ _, he⟩
        · rcases eraseChar_mem c es d h' with ⟨h1, h2⟩
          exact ⟨List.mem_cons_of_mem _ h1, h2⟩

theorem foldl_eraseChar_mem :
    ∀ (cs s : List Char) (d : Char),
      d ∈ cs.foldl (fun o c => eraseChar c o) s → d ∈ s ∧ d ∉ cs
  | [], s, d, h => ⟨by simpa using h, by simp⟩
  | c :: cs, s, d, h => by
      rcases foldl_eraseChar_mem cs (eraseChar c s) d (by simpa using h) with ⟨h1, h2⟩
      rcases eraseChar_mem c s d h1 with ⟨h3, h4⟩
      exact ⟨h3, by simp [h4, h2]⟩

theorem marker_mem_noncharacters (d : Char) (h : isScopeMarker d = true) :
    d ∈ NONCHARACTERS := by
  have hb : 0xFDD0 ≤ d.toNat ∧ d.toNat ≤ 0xFDEF := by
    simpa [isScopeMarker] using h
  refine List.mem_map.mpr ⟨d.toNat, ?_, Char.ofNat_toNat d⟩
  exact List.mem_range'_1.mpr ⟨hb.1, by omega⟩

theorem noMarkers_iff (s : List Char) :
    noMarkers s = true ↔ ∀ c ∈ s, isScopeMarker c = false := by
  simp [noMarkers, List.all_eq_true]

theorem deleteNonChars_free (s : List Char) :
    ∀ c ∈ deleteNonChars s, isScopeMarker c = false := by
  intro c hc
  rcases foldl_eraseChar_mem NONCHARACTERS s c hc with ⟨_, hnot⟩
  cases hm : isScopeMarker c with
  | false => rfl
  | true => exact absurd (marker_mem_noncharacters c hm) hnot

theorem subWsCloseFuel_free (tag : List Char)
    (htag : ∀ c ∈ tag, isScopeMarker c = false) :
    ∀ (fuel : Nat) (s : List Char), (∀ c ∈ s, isScopeMarker c = false) →
      ∀ c ∈ subWsCloseFuel tag fuel s, isScopeMarker c = false := by
  intro fuel
  induction fuel with
  | zero => intro s hs; simpa [subWsCloseFuel] using hs
  | succ n ih =>
    intro s hs
    match s with
    | [] => simp [subWsCloseFuel]
    | c :: cs =>
      have hcs : ∀ x ∈ cs, isScopeMarker x = false :=
        fun x hx => hs x (List.mem_cons_of_mem _ hx)
      by_cases hsp : pySpace c = true
      · by_cases hst : startsWith (closeLit tag)
            (cs.drop (cs.takeWhile pySpace).length) = true
        · have hrest : ∀ x ∈ (cs.drop (cs.takeWhile pySpace).length).drop
              (closeLit tag).length, isScopeMarker x = false :=
            fun x hx => hcs x (List.mem_of_mem_drop (List.mem_of_mem_drop hx))
          simp only [subWsCloseFuel, hsp, hst, if_true]
          intro d hd
          rcases List.mem_append.mp hd with hd | hd
          · rcases List.mem_cons.mp hd with rfl | hd
            · decide
            · rcases List.mem_cons.mp hd with rfl | hd
              · decide
              · rcases List.mem_append.mp hd with hd | hd
                · exact htag d hd
                · rcases List.mem_singleton.mp hd with rfl
                  decide
          · rcases List.mem_cons.mp hd with rfl | hd
            · decide
            · exact ih _ hrest d hd
        · have hst' : startsWith (closeLit tag)
              (cs.drop (cs.takeWhile pySpace).length) = false := by simpa using hst
          simp only [subWsCloseFuel, hsp, hst', if_true, Bool.false_eq_true, if_false]
          intro d hd
          rcases List.mem_cons.mp hd with rfl | hd
          · exact hs d (List.mem_cons_self _ _)
          · exact ih cs hcs d hd
      · have hsp' : pySpace c = false := by simpa using hsp
        simp only [subWsCloseFuel, hsp', Bool.false_eq_true, if_false]
        intro d hd
        rcases List.mem_cons.mp hd with rfl | hd
        · exact hs d (List.mem_cons_self _ _)
        · exact ih cs hcs d hd

theorem subWsEidFuel_free (tag : List Char)
    (htag : ∀ c ∈ tag, isScopeMarker c = false) :
    ∀ (fuel : Nat) (s : List Char), (∀ c ∈ s, isScopeMarker c = false) →
      ∀ c ∈ subWsEidFuel tag fuel s, isScopeMarker c = false := by
  intro fuel
  induction fuel with
  | zero => intro s hs; simpa [subWsEidFuel] using hs
  | succ n ih =>
    intro s hs
    match s with
    | [] => simp [subWsEidFuel]
    | c :: cs =>
      have hcs : ∀ x ∈ cs, isScopeMarker x = false :=
        fun x hx => hs x (List.mem_cons_of_mem _ hx)
      have hdefault : ∀ d ∈ c :: subWsEidFuel tag n cs, isScopeMarker d = false := by
        intro d hd
        rcases List.mem_cons.mp hd with rfl | hd
        · exact hs d (List.mem_cons_self _ _)
        · exact ih cs hcs d hd
      have hafter : ∀ x ∈ (cs.drop (cs.takeWhile pySpace).length).drop
          (eidLit tag).length, isScopeMarker x = false :=
        fun x hx => hcs x (List.mem_of_mem_drop (List.mem_of_mem_drop hx))
      intro d hd
      simp only [subWsEidFuel] at hd
      split at hd
      · split at hd
        · split at hd
          · rcases List.mem_append.mp hd with hd1 | hd1
            · simp only [eidLit, List.cons_append] at hd1
              rcases List.mem_cons.mp hd1 with rfl | hd2
              · decide
              · rcases List.mem_append.mp hd2 with hd3 | hd3
                · rcases List.mem_append.mp hd3 with hd4 | hd4
                  · exact htag d hd4
                  · have hlit : ∀ x ∈ (" eID=".data), isScopeMarker x = false := by decide
                    exact hlit d hd4
                · exact hafter d (mem_of_takeWhile_mem _ _ d hd3)
            · rcases List.mem_cons.mp hd1 with rfl | hd2
              · decide
              · rcases List.mem_cons.mp hd2 with rfl | hd3
                · decide
                · rcases List.mem_cons.mp hd3 with rfl | hd4
                  · decide
                  · refine ih _ ?_ d hd4
                    intro x hx
                    exact hafter x (List.mem_of_mem_drop (List.mem_of_mem_drop hx))
          · exact hdefault d hd
        · exact hdefault d hd
      · exact hdefault d hd

theorem parseOneClose_mem (s t rest : List Char)
    (h : parseOneClose s = some (t, rest)) :
    (∀ d ∈ t, d ∈ s ∨ d = '<' ∨ d = '/' ∨ d = '>') ∧ (∀ d ∈ rest, d ∈ s) := by
  by_cases hpre : startsWith ("</".data) s = true
  · by_cases hemp : (((s.drop 2).takeWhile (fun d => d ≠ '>')).isEmpty
        || ((s.drop 2).drop ((s.drop 2).takeWhile (fun d => d ≠ '>')).length).isEmpty) = true
    · simp only [parseOneClose, hpre, hemp, if_true] at h
      cases h
    · have hemp' := Bool.not_eq_true _ |>.mp hemp
      simp only [parseOneClose, hpre, hemp', if_true, Bool.false_eq_true, if_false,
        Option.some.injEq, Prod.mk.injEq] at h
      rcases h with ⟨ht, hrest⟩
      constructor
      · intro d hd
        rw [← ht] at hd
        rcases List.mem_cons.mp hd with rfl | hd
        · exact Or.inr (Or.inl rfl)
        · rcases List.mem_cons.mp hd with rfl | hd
          · exact Or.inr (Or.inr (Or.inl rfl))
          · rcases List.mem_append.mp hd with hd | hd
            · exact Or.inl (List.mem_of_mem_drop (mem_of_takeWhile_mem _ _ d hd))
            · rcases List.mem_singleton.mp hd with rfl
              exact Or.inr (Or.inr (Or.inr rfl))
      · intro d hd
        rw [← hrest] at hd
        exact List.mem_of_mem_drop (List.mem_of_mem_drop (List.mem_of_mem_drop hd))
  · have hpre' : startsWith ("</".data) s = false := by simpa using hpre
    simp only [parseOneClose, hpre', Bool.false_eq_true, if_false] at h
    cases h

theorem parseCloseSeq_mem :
    ∀ (fuel : Nat) (s t rest : List Char),
      parseCloseSeq fuel s = some (t, rest) →
      (∀ d ∈ t, d ∈ s ∨ d = '<' ∨ d = '/' ∨ d = '>') ∧ (∀ d ∈ rest, d ∈ s)
  | 0, s, t, rest, h => by cases h
  | fuel + 1, s, t, rest, h => by
      rcases h1 : parseOneClose s with _ | ⟨t0, rest0⟩
      · rw [parseCloseSeq, h1] at h; cases h
      · rcases parseOneClose_mem s t0 rest0 h1 with ⟨ht0, hrest0⟩
        rcases h2 : parseCloseSeq fuel rest0 with _ | ⟨ts, rest1⟩
        · simp only [parseCloseSeq, h1, h2, Option.some.injEq, Prod.mk.injEq] at h
          rcases h with ⟨rfl, rfl⟩
          exact ⟨ht0, hrest0⟩
        · rcases parseCloseSeq_mem fuel rest0 ts rest1 h2 with ⟨hts, hrest1⟩
          simp only [parseCloseSeq, h1, h2, Option.some.injEq, Prod.mk.injEq] at h
          rcases h with ⟨rfl, rfl⟩
          constructor
          · intro d hd
            rcases List.mem_append.mp hd with hd | hd
            · exact ht0 d hd
            · rcases hts d hd with hd' | hd'
              · exact Or.inl (hrest0 d hd')
              · exact Or.inr hd'
          · exact fun d hd => hrest0 d (hrest1 d hd)

theorem subCloseRunFuel_free :
    ∀ (fuel : Nat) (s : List Char), (∀ c ∈ s, isScopeMarker c = false) →
      ∀ c ∈ subCloseRunFuel fuel s, isScopeMarker c = false := by
  intro fuel
  induction fuel with
  | zero => intro s hs; simpa [subCloseRunFuel] using hs
  | succ n ih =>
    intro s hs
    match s with
    | [] => simp [subCloseRunFuel]
    | c :: cs =>
      have hcs : ∀ x ∈ cs, isScopeMarker x = false :=
        fun x hx => hs x (List.mem_cons_of_mem _ hx)
      have hdefault : ∀ d ∈ c :: subCloseRunFuel n cs, isScopeMarker d = false := by
        intro d hd
        rcases List.mem_cons.mp hd with rfl | hd
        · exact hs d (List.mem_cons_self _ _)
        · exact ih cs hcs d hd
      by_cases hc : c = ' '
      · rcases hps : parseCloseSeq (n + 1)
            (cs.drop (cs.takeWhile (fun d => d = ' ')).length) with _ | ⟨g, rest'⟩
        · simp only [subCloseRunFuel, hc, if_true, hps]
          exact hc ▸ hdefault
        · have hrest : ∀ x ∈ cs.drop (cs.takeWhile (fun d => d = ' ')).length,
              isScopeMarker x = false := fun x hx => hcs x (List.mem_of_mem_drop hx)
          rcases parseCloseSeq_mem (n + 1) _ g rest' hps with ⟨hg, hr⟩
          simp only [subCloseRunFuel, hc, if_true, hps]
          intro d hd
          rcases List.mem_append.mp hd with hd | hd
          · rcases hg d hd with hd' | hd' | hd' | hd'
            · exact hrest d hd'
            · subst hd'; decide
            · subst hd'; decide
            · subst hd'; decide
          · rcases List.mem_cons.mp hd with rfl | hd
            · decide
            · refine ih _ ?_ d hd
              intro x hx
              exact hrest x (hr x (List.mem_of_mem_drop hx))
      · simp only [subCloseRunFuel, hc, if_false]
        exact hdefault

theorem subMultiSpaceFuel_free :
    ∀ (fuel : Nat) (s : List Char), (∀ c ∈ s, isScopeMarker c = false) →
      ∀ c ∈ subMultiSpaceFuel fuel s, isScopeMarker c = false := by
  intro fuel
  induction fuel with
  | zero => intro s hs; simpa [subMultiSpaceFuel] using hs
  | succ n ih =>
    intro s hs
    match s with
    | [] => simp [subMultiSpaceFuel]
    | c :: cs =>
      have hcs : ∀ x ∈ cs, isScopeMarker x = false :=
        fun x hx => hs x (List.mem_cons_of_mem _ hx)
      have hsuffix : ∀ x ∈ cs.drop (cs.takeWhile (fun d => d = ' ')).length,
          isScopeMarker x = false := fun x hx => hcs x (List.mem_of_mem_drop hx)
      by_cases hc : (c = ' ' && startsWith [' '] cs) = true
      · simp only [subMultiSpaceFuel, hc, if_true]
        intro d hd
        rcases List.mem_cons.mp hd with rfl | hd
        · decide
        · exact ih _ hsuffix d hd
      · have hc' := Bool.not_eq_true _ |>.mp hc
        simp only [subMultiSpaceFuel, hc', Bool.false_eq_true, if_false]
        intro d hd
        rcases List.mem_cons.mp hd with rfl | hd
        · exact hs d (List.mem_cons_self _ _)
        · exact ih cs hcs d hd

theorem subSpaceNLFuel_free :
    ∀ (fuel : Nat) (s : List Char), (∀ c ∈ s, isScopeMarker c = false) →
      ∀ c ∈ subSpaceNLFuel fuel s, isScopeMarker c = false := by
  intro fuel
  induction fuel with
  | zero => intro s hs; simpa [subSpaceNLFuel] using hs
  | succ n ih =>
    intro s hs
    match s with
    | [] => simp [subSpaceNLFuel]
    | c :: cs =>
      have hcs : ∀ x ∈ cs, isScopeMarker x = false :=
        fun x hx => hs x (List.mem_cons_of_mem _ hx)
      have hsuffix : ∀ x ∈ cs.drop (cs.takeWhile (fun d => d = '\n')).length,
          isScopeMarker x = false := fun x hx => hcs x (List.mem_of_mem_drop hx)
      have hnl : ∀ d ∈ '\n' :: subSpaceNLFuel n
          (cs.drop (cs.takeWhile (fun d => d = '\n')).length), isScopeMarker d = false := by
        intro d hd
        rcases List.mem_cons.mp hd with rfl | hd
        · decide
        · exact ih _ hsuffix d hd
      by_cases hc1 : (c = ' ' && startsWith ['\n', '\n'] cs) = true
      · simp only [subSpaceNLFuel, hc1, if_true]
        exact hnl
      · have hc1' := Bool.not_eq_true _ |>.mp hc1
        by_cases hc2 : (c = '\n' && startsWith ['\n'] cs) = true
        · simp only [subSpaceNLFuel, hc1', hc2, Bool.false_eq_true, if_false, if_true]
          exact hnl
        · have hc2' := Bool.not_eq_true _ |>.mp hc2
          simp only [subSpaceNLFuel, hc1', hc2', Bool.false_eq_true, if_false]
          intro d hd
          rcases List.mem_cons.mp hd with rfl | hd
          · exact hs d (List.mem_cons_self _ _)
          · exact ih cs hcs d hd

theorem replaceLitFuel_free (pat repl : List Char)
    (hrepl : ∀ c ∈ repl, isScopeMarker c = false) :
    ∀ (fuel : Nat) (s : List Char), (∀ c ∈ s, isScopeMarker c = false) →
      ∀ c ∈ replaceLitFuel pat repl fuel s, isScopeMarker c = false := by
  intro fuel
  induction fuel with
  | zero => intro s hs; simpa [replaceLitFuel] using hs
  | succ n ih =>
    intro s hs
    match s with
    | [] => simp [replaceLitFuel]
    | c :: cs =>
      have hcs : ∀ x ∈ cs, isScopeMarker x = false :=
        fun x hx => hs x (List.mem_cons_of_mem _ hx)
      by_cases hp : startsWith pat (c :: cs) = true
      · simp only [replaceLitFuel, hp, if_true]
        intro d hd
        rcases List.mem_append.mp hd with hd | hd
        · exact hrepl d hd
        · refine ih _ ?_ d hd
          intro x hx
          exact hs x (List.mem_of_mem_drop hx)
      · have hp' : startsWith pat (c :: cs) = false := by simpa using hp
        simp only [replaceLitFuel, hp', Bool.false_eq_true, if_false]
        intro d hd
        rcases List.mem_cons.mp hd with rfl | hd
        · exact hs d (List.mem_cons_self _ _)
        · exact ih cs hcs d hd

theorem endBlockPass_free (s : List Char) (hs : ∀ c ∈ s, isScopeMarker c = false) :
    ∀ c ∈ endBlockPass s, isScopeMarker c = false := by
  have hgen : ∀ (bs : List (List Char)), (∀ b ∈ bs, ∀ c ∈ b, isScopeMarker c = false) →
      ∀ (t : List Char), (∀ c ∈ t, isScopeMarker c = false) →
      ∀ c ∈ bs.foldl (fun o b => subWsEid b (subWsClose b o)) t, isScopeMarker c = false := by
    intro bs
    induction bs with
    | nil => intro _ t ht; simpa using ht
    | cons b bs ih =>
        intro hbs t ht
        refine ih (fun b' hb' => hbs b' (List.mem_cons_of_mem _ hb')) _ ?_
        exact subWsEidFuel_free b (hbs b (List.mem_cons_self _ _)) _ _
          (subWsCloseFuel_free b (hbs b (List.mem_cons_self _ _)) _ t ht)
  exact hgen END_BLOCKS (by decide) s hs

theorem specialBooksPass_free (s : List Char)
    (hs : ∀ c ∈ s, isScopeMarker c = false) :
    ∀ c ∈ specialBooksPass s, isScopeMarker c = false := by
  have hgen : ∀ (sbs : List (List Char)),
      (∀ sb ∈ sbs, ∀ c ∈ sbRepl sb, isScopeMarker c = false) →
      ∀ (t : List Char), (∀ c ∈ t, isScopeMarker c = false) →
      ∀ c ∈ sbs.foldl (fun o sb => replaceLit (sbPat sb) (sbRepl sb) o) t,
        isScopeMarker c = false := by
    intro sbs
    induction sbs with
    | nil => intro _ t ht; simpa using ht
    | cons sb sbs ih =>
        intro hsbs t ht
        refine ih (fun x hx => hsbs x (List.mem_cons_of_mem _ hx)) _ ?_
        exact replaceLitFuel_free _ _ (hsbs sb (List.mem_cons_self _ _)) _ t ht
  exact hgen SPECIAL_BOOKS (by decide) s hs

/-- C1.  For every text reaching the scope-marker deletion loop of the
Reorder & Cleanup pass, everything `ConvertToOSIS` subsequently does (the
end-tag whitespace normalizations, the space/blank-line collapsing, and the
special-book retyping) yields a final text containing no private-use
scope-marker code point U+FDD0 … U+FDEF: every marker is deleted no later
than the cleanup pass and none is ever re-introduced afterwards, so the
final output of the conversion contains none. -/
theorem cleanup_no_scope_markers (osis : List Char) :
    noMarkers (cleanupFromMarkerDeletion osis) = true := by
  rw [noMarkers_iff]
  unfold cleanupFromMarkerDeletion
  refine specialBooksPass_free _ ?_
  refine subSpaceNLFuel_free _ _ ?_
  refine subMultiSpaceFuel_free _ _ ?_
  refine subCloseRunFuel_free _ _ ?_
  refine endBlockPass_free _ ?_
  exact deleteNonChars_free osis

/- No-op lemmas: a scan whose trigger literal never occurs leaves the text
unchanged. -/

theorem containsSub_cons_false (pat : List Char) (c : Char) (cs : List Char)
    (h : containsSub pat (c :: cs) = false) :
    startsWith pat (c :: cs) = false ∧ containsSub pat cs = false := by
  have h' := h
  rw [containsSub] at h'
  exact Bool.or_eq_false_iff.mp h'

theorem containsSub_notMem_head (a : Char) (r : List Char) :
    ∀ s : List Char, a ∉ s → containsSub (a :: r) s = false
  | [], _ => rfl
  | c :: cs, h => by
      have hac : ¬ a = c := fun he => h (he ▸ List.mem_cons_self _ _)
      have hcs : a ∉ cs := fun hm => h (List.mem_cons_of_mem _ hm)
      rw [containsSub, startsWith]
      simp [decide_eq_false hac, containsSub_notMem_head a r cs hcs]

theorem replaceLitFuel_noop (pat repl : List Char) :
    ∀ (fuel : Nat) (s : List Char), containsSub pat s = false →
      replaceLitFuel pat repl fuel s = s := by
  intro fuel
  induction fuel with
  | zero => intro s _; rfl
  | succ n ih =>
    intro s hs
    match s with
    | [] => rfl
    | c :: cs =>
      rcases containsSub_cons_false pat c cs hs with ⟨h1, h2⟩
      rw [replaceLitFuel, if_neg (by simp [h1]), ih cs h2]

theorem subQaFuel_noop :
    ∀ (fuel : Nat) (s : List Char), containsSub ("\\qa".data) s = false →
      subQaFuel fuel s = s := by
  intro fuel
  induction fuel with
  | zero => intro s _; rfl
  | succ n ih =>
    intro s hs
    match s with
    | [] => rfl
    | c :: cs =>
      rcases containsSub_cons_false _ c cs hs with ⟨h1, h2⟩
      rw [subQaFuel, if_neg (by simp [h1]), ih cs h2]

theorem subQacFuel_noop :
    ∀ (fuel : Nat) (s : List Char), containsSub ("\\qac".data) s = false →
      subQacFuel fuel s = s := by
  intro fuel
  induction fuel with
  | zero => intro s _; rfl
  | succ n ih =>
    intro s hs
    match s with
    | [] => rfl
    | c :: cs =>
      rcases containsSub_cons_false _ c cs hs with ⟨h1, h2⟩
      rw [subQacFuel, if_neg (by simp [h1]), ih cs h2]

theorem subQsFuel_noop :
    ∀ (fuel : Nat) (s : List Char), containsSub ("\\qs".data) s = false →
      subQsFuel fuel s = s := by
  intro fuel
  induction fuel with
  | zero => intro s _; rfl
  | succ n ih =>
    intro s hs
    match s with
    | [] => rfl
    | c :: cs =>
      rcases containsSub_cons_false _ c cs hs with ⟨h1, h2⟩
      rw [subQsFuel, if_neg (by simp [h1]), ih cs h2]

theorem subQFuel_noop :
    ∀ (fuel : Nat) (s : List Char), containsSub ("\\q".data) s = false →
      subQFuel fuel s = s := by
  intro fuel
  induction fuel with
  | zero => intro s _; rfl
  | succ n ih =>
    intro s hs
    match s with
    | [] => rfl
    | c :: cs =>
      rcases containsSub_cons_false _ c cs hs with ⟨h1, h2⟩
      rw [subQFuel, if_neg (by simp [h1]), ih cs h2]

theorem subQnFuel_noop :
    ∀ (fuel : Nat) (s : List Char), containsSub ("\\q".data) s = false →
      subQnFuel fuel s = s := by
  intro fuel
  induction fuel with
  | zero => intro s _; rfl
  | succ n ih =>
    intro s hs
    match s with
    | [] => rfl
    | c :: cs =>
      rcases containsSub_cons_false _ c cs hs with ⟨h1, h2⟩
      rw [subQnFuel, if_neg (by simp [h1]), ih cs h2]

theorem subQrQcQmFuel_noop :
    ∀ (fuel : Nat) (s : List Char), '\\' ∉ s →
      subQrQcQmFuel fuel s = some s := by
  intro fuel
  induction fuel with
  | zero => intro s _; rfl
  | succ n ih =>
    intro s hs
    match s with
    | [] => rfl
    | c :: cs =>
      have hc : ¬ c = '\\' := fun he => hs (he ▸ List.mem_cons_self _ _)
      have hcs : '\\' ∉ cs := fun hm => hs (List.mem_cons_of_mem _ hm)
      rw [subQrQcQmFuel, if_neg hc, ih cs hcs]
      rfl

theorem lgWrapFuel_noop :
    ∀ (fuel : Nat) (s : List Char), containsSub ("<l ".data) s = false →
      lgWrapFuel fuel s = s := by
  intro fuel
  induction fuel with
  | zero => intro s _; rfl
  | succ n ih =>
    intro s hs
    match s with
    | [] => rfl
    | c :: cs =>
      rcases containsSub_cons_false _ c cs hs with ⟨h1, h2⟩
      rw [lgWrapFuel, if_neg (by simp [h1]), ih cs h2]

theorem lgInternalFuel_noop :
    ∀ (fuel : Nat) (s : List Char), containsSub ("<lg>".data) s = false →
      lgInternalFuel fuel s = s := by
  intro fuel
  induction fuel with
  | zero => intro s _; rfl
  | succ n ih =>
    intro s hs
    match s with
    | [] => rfl
    | c :: cs =>
      rcases containsSub_cons_false _ c cs hs with ⟨h1, h2⟩
      rw [lgInternalFuel, if_neg (by simp [h1]), ih cs h2]

theorem subPbFuel_noop :
    ∀ (fuel : Nat) (s : List Char), containsSub ("\\pb".data) s = false →
      subPbFuel fuel s = s := by
  intro fuel
  induction fuel with
  | zero => intro s _; rfl
  | succ n ih =>
    intro s hs
    match s with
    | [] => rfl
    | c :: cs =>
      rcases containsSub_cons_false _ c cs hs with ⟨h1, h2⟩
      rw [subPbFuel, if_neg (by simp [h1]), ih cs h2]

set_option maxRecDepth 100000 in
/-- C3 counterexample.  The input `<l a</l>` contains no poetry directive —
no backslash at all — yet the poetry stage rewrites it (wrapping the bare
`<l …</l>` span into `<lg>…</lg>`), so a stage may alter text that contains
none of its directives: the claim as stated is false. -/
theorem stage_unowned_rewrite_cex :
    ('\\' ∈ (("<l a</l>").data) → False)
    ∧ cvt_poetry (("<l a</l>").data) ≠ some (("<l a</l>").data)
    ∧ cvt_poetry (("<l a</l>").data) = some (("<lg><l a</l></lg>").data) := by
  refine ⟨by decide, by decide, by decide⟩

/-- C3 amended.  Running a single stage on text containing none of its
directives returns the input unchanged for the spacing/breaks stage (whose
owned directives are `~`, `//`, `\pb`), but the poetry stage also rewrites
intermediate markup it recognizes (bare `<l …</l>` spans, `\n</l>` break
positions, `<lg>` groups); the poetry stage is a pass-through only when the
text additionally contains none of those element forms (no backslash, no
`\n</l>`, no `<l ` span, no `<lg>` group). -/
theorem stage_unowned_passthrough :
    (∀ t : List Char, containsSub ['~'] t = false →
      containsSub ("//".data) t = false →
      containsSub ("\\pb".data) t = false →
      cvt_spacing_and_breaks t = t)
    ∧ (∀ t : List Char, '\\' ∉ t →
      containsSub ("\n</l>".data) t = false →
      containsSub ("<l ".data) t = false →
      containsSub ("<lg>".data) t = false →
      cvt_poetry t = some t) := by
  constructor
  · intro t h1 h2 h3
    have e1 : replaceLit ['~'] ['\u00A0'] t = t := by
      rw [replaceLit]; exact replaceLitFuel_noop _ _ _ t h1
    have e2 : replaceLit ("//".data) ("<lb type=\"x-optional\"/>".data) t = t := by
      rw [replaceLit]; exact replaceLitFuel_noop _ _ _ t h2
    have e3 : subPb t = t := by
      rw [subPb]; exact subPbFuel_noop _ t h3
    unfold cvt_spacing_and_breaks
    rw [e1, e2, e3]
  · intro t hbs h1 h2 h3
    have hq : containsSub ("\\q".data) t = false := containsSub_notMem_head _ _ t hbs
    have hqa : containsSub ("\\qa".data) t = false := containsSub_notMem_head _ _ t hbs
    have hqac : containsSub ("\\qac".data) t = false := containsSub_notMem_head _ _ t hbs
    have hqs : containsSub ("\\qs".data) t = false := containsSub_notMem_head _ _ t hbs
    unfold cvt_poetry
    rw [subQa, subQaFuel_noop _ t hqa,
      subQac, subQacFuel_noop _ t hqac,
      subQs, subQsFuel_noop _ t hqs,
      subQ, subQFuel_noop _ t hq,
      subQn, subQnFuel_noop _ t hq,
      subQrQcQm, subQrQcQmFuel_noop _ t hbs]
    have e1 : replaceLit ("\n</l>".data) ("</l>\n".data) t = t := by
      rw [replaceLit]; exact replaceLitFuel_noop _ _ _ t h1
    have e2 : lgWrap t = t := by
      rw [lgWrap]; exact lgWrapFuel_noop _ t h2
    have e3 : lgInternal t = t := by
      rw [lgInternal]; exact lgInternalFuel_noop _ t h3
    simp only [Option.map_some', e1, e2, e3]

/-- Witness for the amended C3: a text owning no directive of either stage
passes through both unchanged. -/
theorem stage_unowned_passthrough_witness :
    cvt_spacing_and_breaks (("hello world\n").data) = ("hello world\n").data
    ∧ cvt_poetry (("hello world\n").data) = some (("hello world\n").data) :=
  ⟨stage_unowned_passthrough.1 (("hello world\n").data)
      (by decide) (by decide) (by decide),
   stage_unowned_passthrough.2 (("hello world\n").data)
      (by decide) (by decide) (by decide) (by decide)⟩

/- Lemmas for the empty-chapter round trip. -/

theorem pyDigit_bounds (c : Char) (h : pyDigit c = true) :
    48 ≤ c.toNat ∧ c.toNat ≤ 57 := by
  simpa [pyDigit, Char.isDigit] using h

theorem pyDigit_not_space (c : Char) (h : pyDigit c = true) : pySpace c = false := by
  have hv := pyDigit_bounds c h
  have hne : ∀ d : Char, d.toNat < 48 → ¬ c = d := by
    intro d hdn he
    subst he
    omega
  simp [pySpace, decide_eq_false (hne ' ' (by decide)),
    decide_eq_false (hne '\t' (by decide)), decide_eq_false (hne '\n' (by decide)),
    decide_eq_false (hne '\x0d' (by decide)), decide_eq_false (hne '\x0b' (by decide)),
    decide_eq_false (hne '\x0c' (by decide))]

theorem pyDigit_word (c : Char) (h : pyDigit c = true) : isWordChar c = true := by
  have h' : c.isDigit = true := h
  simp [isWordChar, Char.isAlphanum, h']

theorem takeWhile_all_append (p : Char → Bool) :
    ∀ (run t : List Char), (∀ c ∈ run, p c = true) →
      (run ++ t).takeWhile p = run ++ t.takeWhile p
  | [], t, _ => by simp
  | c :: run', t, h => by
      rw [List.cons_append, List.takeWhile_cons_of_pos (h c (List.mem_cons_self _ _)),
        takeWhile_all_append p run' t (fun x hx => h x (List.mem_cons_of_mem _ hx))]
      simp

theorem chapTryK_full (t1 X' : List Char) (h1 : t1 ≠ [])
    (hd : ∀ c ∈ t1, pyDigit c = true) (hla : chapterLA X' = true) :
    chapTryK t1 ('\n' :: X') t1.length = some (t1, ['\n'], X') := by
  match t1, h1 with
  | d :: t1', _ =>
    have hlen : (d :: t1').length = t1'.length + 1 := by simp
    rw [hlen, chapTryK]
    have htake : (d :: t1').take (t1'.length + 1) = d :: t1' := by
      rw [← hlen, List.take_length]
    have hdrop : (d :: t1').drop (t1'.length + 1) = [] := by
      rw [← hlen, List.drop_length]
    rcases List.getLast?_eq_getLast (d :: t1') (by simp) with hlast
    have hw : pyDigit ((d :: t1').getLast (by simp)) = true :=
      hd _ (List.getLast_mem _)
    have hb : boundaryNext ((d :: t1').getLast (by simp)) ('\n' :: X') = true := by
      simp [boundaryNext, pyDigit_word _ hw]
      decide
    have hsplit : splitAtLA chapterLA (X'.length + 1) X' = some ([], X') := by
      rw [splitAtLA.eq_def]
      simp [hla]
    simp only [htake, hdrop, List.nil_append, hlast, hb, if_true, hsplit]

set_option maxRecDepth 100000 in
/-- C6.  A chapter-opening directive followed immediately by a further
chapter-opening directive (an empty chapter) yields an opening chapter
milestone immediately followed — with only the line break between the two
directives intervening, and no verse content — by a matching closing
milestone bearing the same chapter identifier; the scan then continues at
the second directive.  Concretely, `\c 1` directly followed by `\c 2`
produces the `$BOOK$.1` milestone pair with nothing but a newline between
them. -/
theorem empty_chapter_roundtrip :
    (∀ (fuel : Nat) (t1 rest : List Char), t1 ≠ [] →
      (∀ c ∈ t1, pyDigit c = true) →
      subChapterFuel (fuel + 1)
          ('\\' :: 'c' :: ' ' :: (t1 ++ '\n' :: '\\' :: 'c' :: ' ' :: rest))
        = FDD1 :: ("<chapter osisID=\"$BOOK$.".data) ++ t1
            ++ ("\" sID=\"$BOOK$.".data) ++ t1 ++ ("\"/>".data)
            ++ ['\n']
            ++ ("<chapter eID=\"$BOOK$.".data) ++ t1 ++ ("\"/>".data)
            ++ FDD3 :: '\n'
            :: subChapterFuel fuel ('\\' :: 'c' :: ' ' :: rest))
    ∧ subChapter (("\\c 1\n\\c 2 x</div type=\"book\">").data)
        = FDD1 :: ("<chapter osisID=\"$BOOK$.1\" sID=\"$BOOK$.1\"/>" ++
            "\n<chapter eID=\"$BOOK$.1\"/>").data
            ++ FDD3 :: '\n'
            :: FDD1 :: ("<chapter osisID=\"$BOOK$.2\" sID=\"$BOOK$.2\"/>" ++
                " x<chapter eID=\"$BOOK$.2\"/>").data
            ++ FDD3 :: '\n' :: ("</div type=\"book\">").data := by
  constructor
  · intro fuel t1 rest h1 hd
    match t1, h1 with
    | d :: t1', _ =>
      have hdd : pyDigit d = true := hd d (List.mem_cons_self _ _)
      have hds : pySpace d = false := pyDigit_not_space d hdd
      have hws : ((d :: t1') ++ '\n' :: '\\' :: 'c' :: ' ' :: rest).takeWhile pySpace
          = [] := by
        rw [List.cons_append, List.takeWhile_cons_of_neg (by simp [hds])]
      have htok : ((d :: t1') ++ '\n' :: '\\' :: 'c' :: ' ' :: rest).takeWhile
          (fun x => !pySpace x) = d :: t1' := by
        rw [takeWhile_all_append _ (d :: t1') _
          (fun x hx => by simp [pyDigit_not_space x (hd x hx)]),
          List.takeWhile_cons_of_neg (by decide)]
        simp
      have hrest1 : ((d :: t1') ++ '\n' :: '\\' :: 'c' :: ' ' :: rest).drop
          (t1'.length + 1) = '\n' :: '\\' :: 'c' :: ' ' :: rest := by
        simp
      have hla : chapterLA ('\\' :: 'c' :: ' ' :: rest) = true := by
        simp [chapterLA, startsWith, pySpace]
      have htry : chapTryK (d :: t1') ('\n' :: '\\' :: 'c' :: ' ' :: rest)
          (t1'.length + 1) = some (d :: t1', ['\n'], '\\' :: 'c' :: ' ' :: rest) := by
        have h := chapTryK_full (d :: t1') ('\\' :: 'c' :: ' ' :: rest)
          (by simp) hd hla
        simpa using h
      have hsp : pySpace ' ' = true := by decide
      rw [subChapterFuel, if_pos (by simp [startsWith])]
      simp only [List.drop_succ_cons, List.drop_zero,
        List.takeWhile_cons_of_pos hsp, hws, List.length_cons, List.length_nil,
        htok, hrest1]
      rw [htry]
      simp
  · decide

/-- Witness for C6: the document `\c 1` directly followed by `\c 2`,
instantiated concretely. -/
theorem empty_chapter_roundtrip_witness :
    subChapterFuel (0 + 1)
        ('\\' :: 'c' :: ' ' :: (['1'] ++ '\n' :: '\\' :: 'c' :: ' ' :: ("x").data))
      = FDD1 :: ("<chapter osisID=\"$BOOK$.".data) ++ ['1']
          ++ ("\" sID=\"$BOOK$.".data) ++ ['1'] ++ ("\"/>".data)
          ++ ['\n']
          ++ ("<chapter eID=\"$BOOK$.".data) ++ ['1'] ++ ("\"/>".data)
          ++ FDD3 :: '\n' :: subChapterFuel 0 ('\\' :: 'c' :: ' ' :: ("x").data) :=
  empty_chapter_roundtrip.1 0 ['1'] (("x").data) (by decide) (by decide)

/- Lemmas about placeholder replacement over well-decomposed chunks. -/

theorem replaceLitFuel_nil (pat v : List Char) (fuel : Nat) :
    replaceLitFuel pat v fuel [] = [] := by
  cases fuel <;> rfl

theorem startsWith_append_self : ∀ (p t : List Char), startsWith p (p ++ t) = true
  | [], _ => rfl
  | c :: p', t => by simp [startsWith, startsWith_append_self p' t]

theorem noDollar_not_mem (s : List Char) (h : noDollar s = true) : '$' ∉ s := by
  intro hm
  simp [noDollar, List.contains, List.elem_eq_mem, hm] at h

theorem replaceLitFuel_skip_plain (pr v : List Char) :
    ∀ (s T : List Char) (fuel : Nat), '$' ∉ s → s.length + T.length ≤ fuel →
      replaceLitFuel ('$' :: pr) v fuel (s ++ T)
        = s ++ replaceLitFuel ('$' :: pr) v (fuel - s.length) T
  | [], T, fuel, _, _ => by simp
  | c :: s', T, fuel, hs, hle => by
      have hc : ¬ c = '$' := fun he => hs (he ▸ List.mem_cons_self _ _)
      have hs' : '$' ∉ s' := fun hm => hs (List.mem_cons_of_mem _ hm)
      obtain ⟨f, rfl⟩ : ∃ f, fuel = f + 1 := ⟨fuel - 1, by simp at hle; omega⟩
      have hsw : startsWith ('$' :: pr) (c :: (s' ++ T)) = false := by
        simp [startsWith]
        intro he
        exact absurd he.symm hc
      rw [List.cons_append, replaceLitFuel, if_neg (by simp [hsw]),
        replaceLitFuel_skip_plain pr v s' T f hs' (by simp at hle; omega)]
      simp only [List.length_cons]
      have heq : f + 1 - (s'.length + 1) = f - s'.length := by omega
      rw [heq, List.cons_append]

theorem replaceLitFuel_match (pr v : List Char) (T : List Char) (f : Nat) :
    replaceLitFuel ('$' :: pr) v (f + 1) (('$' :: pr) ++ T)
      = v ++ replaceLitFuel ('$' :: pr) v f T := by
  rw [List.cons_append, replaceLitFuel,
    if_pos (by rw [← List.cons_append]; exact startsWith_append_self _ _)]
  congr 1
  congr 1
  show (('$' :: pr) ++ T).drop ('$' :: pr).length = T
  exact List.drop_left _ _

theorem replaceLitFuel_skip_chapTok (v T : List Char) (f : Nat)
    (hT : startsWith ("BOOK$".data) T = false) :
    replaceLitFuel bookTokL v (f + 6) (chapTokL ++ T)
      = chapTokL ++ replaceLitFuel bookTokL v f T := by
  have hBT : ("BOOK$".data) = ['B', 'O', 'O', 'K', '$'] := rfl
  rw [hBT] at hT
  show replaceLitFuel bookTokL v (f + 6)
      ('$' :: 'C' :: 'H' :: 'A' :: 'P' :: '$' :: T)
    = '$' :: 'C' :: 'H' :: 'A' :: 'P' :: '$' :: replaceLitFuel bookTokL v f T
  rw [replaceLitFuel, if_neg (by simp [bookTokL, startsWith])]
  rw [replaceLitFuel, if_neg (by simp [bookTokL, startsWith])]
  rw [replaceLitFuel, if_neg (by simp [bookTokL, startsWith])]
  rw [replaceLitFuel, if_neg (by simp [bookTokL, startsWith])]
  rw [replaceLitFuel, if_neg (by simp [bookTokL, startsWith])]
  rw [replaceLitFuel, if_neg (by simp [bookTokL, startsWith, hT])]

theorem goodSegs_cons_plain (s : List Char) (rest : List Seg)
    (h : goodSegs (Seg.plain s :: rest) = true) :
    noDollar s = true ∧ goodSegs rest = true := by
  simpa [goodSegs, Bool.and_eq_true] using h

theorem goodSegs_cons_chap (rest : List Seg)
    (h : goodSegs (Seg.chapTok :: rest) = true) :
    startsWith ("BOOK$".data) (segText rest) = false ∧ goodSegs rest = true := by
  rw [goodSegs, Bool.and_eq_true] at h
  exact ⟨by simpa using h.1, h.2⟩

theorem replaceBook_segs (v : List Char) :
    ∀ (segs : List Seg) (fuel : Nat), goodSegs segs = true →
      (segText segs).length ≤ fuel →
      replaceLitFuel bookTokL v fuel (segText segs)
        = segText (substBook v segs) := by
  intro segs
  induction segs with
  | nil =>
      intro fuel _ _
      rw [show segText [] = [] from rfl, replaceLitFuel_nil]
      rfl
  | cons seg rest ih =>
      intro fuel hg hle
      match seg with
      | Seg.plain s =>
          rcases goodSegs_cons_plain s rest hg with ⟨hnd, hg'⟩
          rw [show segText (Seg.plain s :: rest) = s ++ segText rest from rfl] at hle ⊢
          have hskip := replaceLitFuel_skip_plain ['B', 'O', 'O', 'K', '$'] v s
            (segText rest) fuel (noDollar_not_mem s hnd) (by simpa using hle)
          rw [show ('$' :: ['B', 'O', 'O', 'K', '$'] : List Char) = bookTokL from rfl]
            at hskip
          rw [hskip, ih (fuel - s.length) hg' (by simp at hle; omega)]
          rfl
      | Seg.bookTok =>
          have hg' : goodSegs rest = true := hg
          rw [show segText (Seg.bookTok :: rest) = bookTokL ++ segText rest from rfl]
            at hle ⊢
          obtain ⟨f, rfl⟩ : ∃ f, fuel = f + 1 :=
            ⟨fuel - 1, by simp [bookTokL] at hle; omega⟩
          have hm := replaceLitFuel_match ['B', 'O', 'O', 'K', '$'] v (segText rest) f
          rw [show ('$' :: ['B', 'O', 'O', 'K', '$'] : List Char) = bookTokL from rfl]
            at hm
          rw [hm, ih f hg' (by simp [bookTokL] at hle; omega)]
          rfl
      | Seg.chapTok =>
          rcases goodSegs_cons_chap rest hg with ⟨hbt, hg'⟩
          rw [show segText (Seg.chapTok :: rest) = chapTokL ++ segText rest from rfl]
            at hle ⊢
          obtain ⟨f, rfl⟩ : ∃ f, fuel = f + 6 :=
            ⟨fuel - 6, by simp [chapTokL] at hle; omega⟩
          rw [replaceLitFuel_skip_chapTok v (segText rest) f hbt,
            ih f hg' (by simp [chapTokL] at hle; omega)]
          rfl

theorem replaceChap_segs (w : List Char) :
    ∀ (segs : List Seg) (fuel : Nat), chapOnlyOK segs = true →
      (segText segs).length ≤ fuel →
      replaceLitFuel chapTokL w fuel (segText segs)
        = segText (substChap w segs) := by
  intro segs
  induction segs with
  | nil =>
      intro fuel _ _
      rw [show segText [] = [] from rfl, replaceLitFuel_nil]
      rfl
  | cons seg rest ih =>
      intro fuel hg hle
      match seg with
      | Seg.plain s =>
          have hok : noDollar s = true ∧ chapOnlyOK rest = true := by
            simpa [chapOnlyOK, Bool.and_eq_true] using hg
          rw [show segText (Seg.plain s :: rest) = s ++ segText rest from rfl]
            at hle ⊢
          have hskip := replaceLitFuel_skip_plain ['C', 'H', 'A', 'P', '$'] w s
            (segText rest) fuel (noDollar_not_mem s hok.1) (by simpa using hle)
          rw [show ('$' :: ['C', 'H', 'A', 'P', '$'] : List Char) = chapTokL from rfl]
            at hskip
          rw [hskip, ih (fuel - s.length) hok.2 (by simp at hle; omega)]
          rfl
      | Seg.chapTok =>
          have hok : chapOnlyOK rest = true := hg
          rw [show segText (Seg.chapTok :: rest) = chapTokL ++ segText rest from rfl]
            at hle ⊢
          obtain ⟨f, rfl⟩ : ∃ f, fuel = f + 1 :=
            ⟨fuel - 1, by simp [chapTokL] at hle; omega⟩
          have hm := replaceLitFuel_match ['C', 'H', 'A', 'P', '$'] w (segText rest) f
          rw [show ('$' :: ['C', 'H', 'A', 'P', '$'] : List Char) = chapTokL from rfl]
            at hm
          rw [hm, ih f hok (by simp [chapTokL] at hle; omega)]
          rfl
      | Seg.bookTok =>
          rw [show chapOnlyOK (Seg.bookTok :: rest) = false from rfl] at hg
          cases hg

theorem substBook_chapOnly (v : List Char) (hv : noDollar v = true) :
    ∀ segs : List Seg, goodSegs segs = true →
      chapOnlyOK (substBook v segs) = true := by
  intro segs
  induction segs with
  | nil => intro _; rfl
  | cons seg rest ih =>
      intro hg
      match seg with
      | Seg.plain s =>
          rcases goodSegs_cons_plain s rest hg with ⟨hnd, hg'⟩
          show (noDollar s && chapOnlyOK (substBook v rest)) = true
          simp [hnd, ih hg']
      | Seg.bookTok =>
          show (noDollar v && chapOnlyOK (substBook v rest)) = true
          simp [hv, ih hg]
      | Seg.chapTok =>
          rcases goodSegs_cons_chap rest hg with ⟨_, hg'⟩
          show chapOnlyOK (substBook v rest) = true
          exact ih hg'

theorem chapOnly_cons_plain (s : List Char) (rest : List Seg)
    (h : chapOnlyOK (Seg.plain s :: rest) = true) :
    noDollar s = true ∧ chapOnlyOK rest = true := by
  simpa [chapOnlyOK, Bool.and_eq_true] using h

theorem chapOnly_subst_nomem (w : List Char) (hw : '$' ∉ w) :
    ∀ segs : List Seg, chapOnlyOK segs = true →
      '$' ∉ segText (substChap w segs) := by
  intro segs
  induction segs with
  | nil => intro _ hm; cases hm
  | cons seg rest ih =>
      intro hg hm
      match seg with
      | Seg.plain s =>
          rcases chapOnly_cons_plain s rest hg with ⟨hnd, hg'⟩
          rw [show segText (substChap w (Seg.plain s :: rest))
              = s ++ segText (substChap w rest) from rfl] at hm
          rcases List.mem_append.mp hm with hm | hm
          · exact noDollar_not_mem s hnd hm
          · exact ih hg' hm
      | Seg.chapTok =>
          have hg' : chapOnlyOK rest = true := hg
          rw [show segText (substChap w (Seg.chapTok :: rest))
              = w ++ segText (substChap w rest) from rfl] at hm
          rcases List.mem_append.mp hm with hm | hm
          · exact hw hm
          · exact ih hg' hm
      | Seg.bookTok =>
          rw [show chapOnlyOK (Seg.bookTok :: rest) = false from rfl] at hg
          cases hg

theorem chapOnly_noChap_nomem :
    ∀ segs : List Seg, chapOnlyOK segs = true → hasChapTok segs = false →
      '$' ∉ segText segs := by
  intro segs
  induction segs with
  | nil => intro _ _ hm; cases hm
  | cons seg rest ih =>
      intro hg hc hm
      match seg with
      | Seg.plain s =>
          rcases chapOnly_cons_plain s rest hg with ⟨hnd, hg'⟩
          have hc' : hasChapTok rest = false := hc
          rw [show segText (Seg.plain s :: rest) = s ++ segText rest from rfl] at hm
          rcases List.mem_append.mp hm with hm | hm
          · exact noDollar_not_mem s hnd hm
          · exact ih hg' hc' hm
      | Seg.chapTok =>
          rw [show hasChapTok (Seg.chapTok :: rest) = true from rfl] at hc
          cases hc
      | Seg.bookTok =>
          rw [show chapOnlyOK (Seg.bookTok :: rest) = false from rfl] at hg
          cases hg

theorem noDollar_of_not_mem (s : List Char) (h : '$' ∉ s) : noDollar s = true := by
  simp [noDollar, List.contains, List.elem_eq_mem, h]

theorem splitOnChar_ne_nil (sep : Char) : ∀ s : List Char, splitOnChar sep s ≠ [] := by
  intro s
  cases s with
  | nil => simp [splitOnChar]
  | cons c cs =>
      by_cases hc : c = sep
      · simp [splitOnChar, hc]
      · rcases h : splitOnChar sep cs with _ | ⟨seg, rest⟩ <;>
          simp [splitOnChar, hc, h]

theorem splitOnChar_mem (sep : Char) :
    ∀ (s : List Char) (q : List Char), q ∈ splitOnChar sep s → ∀ c ∈ q, c ∈ s := by
  intro s
  induction s with
  | nil =>
      intro q hq c hc
      simp [splitOnChar] at hq
      subst hq
      cases hc
  | cons a as ih =>
      intro q hq c hc
      by_cases ha : a = sep
      · rw [show splitOnChar sep (a :: as) = [] :: splitOnChar sep as from by
          simp [splitOnChar, ha]] at hq
        rcases List.mem_cons.mp hq with rfl | hq
        · cases hc
        · exact List.mem_cons_of_mem a (ih q hq c hc)
      · rcases h : splitOnChar sep as with _ | ⟨seg, rest⟩
        · exact absurd h (splitOnChar_ne_nil sep as)
        · rw [show splitOnChar sep (a :: as) = (a :: seg) :: rest from by
            simp [splitOnChar, ha, h]] at hq
          rcases List.mem_cons.mp hq with rfl | hq
          · rcases List.mem_cons.mp hc with rfl | hc
            · exact List.mem_cons_self c as
            · exact List.mem_cons_of_mem a
                (ih seg (by rw [h]; exact List.mem_cons_self seg rest) c hc)
          · exact List.mem_cons_of_mem a
              (ih q (by rw [h]; exact List.mem_cons_of_mem seg hq) c hc)

theorem splitOnChar_sepFree_append (sep : Char) :
    ∀ (x T h : List Char) (t : List (List Char)), sep ∉ x →
      splitOnChar sep T = h :: t →
      splitOnChar sep (x ++ T) = (x ++ h) :: t := by
  intro x
  induction x with
  | nil => intro T h t _ hT; simpa using hT
  | cons a as ih =>
      intro T h t hx hT
      have ha : ¬(a = sep) := fun e => hx (by rw [e]; exact List.mem_cons_self sep as)
      have hrec := ih T h t (fun hm => hx (List.mem_cons_of_mem a hm)) hT
      rw [show (a :: as) ++ T = a :: (as ++ T) from rfl]
      simp [splitOnChar, ha, hrec]

theorem combineText_ne_nil (p : List Char) (ps : List (List Char))
    (h : List Char) (t : List (List Char)) : combineText p ps h t ≠ [] := by
  cases ps <;> simp [combineText]

theorem splitOnChar_append_combine (sep : Char) :
    ∀ (s T : List Char) (p : List Char) (ps : List (List Char))
      (h : List Char) (t : List (List Char)),
      splitOnChar sep s = p :: ps → splitOnChar sep T = h :: t →
      splitOnChar sep (s ++ T) = combineText p ps h t := by
  intro s
  induction s with
  | nil =>
      intro T p ps h t hs hT
      rw [show splitOnChar sep [] = [[]] from rfl] at hs
      injection hs with h1 h2
      subst h1; subst h2
      simpa [combineText] using hT
  | cons a as ih =>
      intro T p ps h t hs hT
      by_cases ha : a = sep
      · rw [show splitOnChar sep (a :: as) = [] :: splitOnChar sep as from by
          simp [splitOnChar, ha]] at hs
        injection hs with h1 h2
        subst h1; subst h2
        rcases h2' : splitOnChar sep as with _ | ⟨p2, ps2⟩
        · exact absurd h2' (splitOnChar_ne_nil sep as)
        · have hrec := ih T p2 ps2 h t h2' hT
          rw [show (a :: as) ++ T = a :: (as ++ T) from rfl]
          rw [show splitOnChar sep (a :: (as ++ T))
              = [] :: splitOnChar sep (as ++ T) from by simp [splitOnChar, ha]]
          rw [hrec]
          rfl
      · rcases h0 : splitOnChar sep as with _ | ⟨seg, rest⟩
        · exact absurd h0 (splitOnChar_ne_nil sep as)
        · rw [show splitOnChar sep (a :: as) = (a :: seg) :: rest from by
            simp [splitOnChar, ha, h0]] at hs
          injection hs with h1 h2
          subst h2
          have hrec := ih T seg rest h t h0 hT
          rcases hcomb : combineText seg rest h t with _ | ⟨q, qs⟩
          · exact absurd hcomb (combineText_ne_nil seg rest h t)
          · rw [show (a :: as) ++ T = a :: (as ++ T) from rfl]
            rw [show splitOnChar sep (a :: (as ++ T)) = (a :: q) :: qs from by
              simp [splitOnChar, ha, hrec, hcomb]]
            subst h1
            cases rest with
            | nil =>
                rw [show combineText seg [] h t = (seg ++ h) :: t from rfl] at hcomb
                injection hcomb with e1 e2
                subst e1; subst e2
                rfl
            | cons r rs =>
                rw [show combineText seg (r :: rs) h t
                    = seg :: combineText r rs h t from rfl] at hcomb
                injection hcomb with e1 e2
                subst e1
                rw [show combineText (a :: seg) (r :: rs) h t
                    = (a :: seg) :: combineText r rs h t from rfl, e2]

theorem combineText_chunks :
    ∀ (ps : List (List Char)) (p : List Char) (h : List Seg) (t : List (List Seg)),
      combineText p ps (segText h) (t.map segText)
        = (p ++ segText (headChunk ps h)) :: (tailChunks ps h t).map segText := by
  intro ps
  induction ps with
  | nil =>
      intro p h t
      rw [show combineText p [] (segText h) (t.map segText)
          = (p ++ segText h) :: t.map segText from rfl]
      rfl
  | cons p2 ps' ih =>
      intro p h t
      rw [show combineText p (p2 :: ps') (segText h) (t.map segText)
          = p :: combineText p2 ps' (segText h) (t.map segText) from rfl]
      rw [ih p2 h t]
      simp [headChunk, tailChunks, segText]

theorem splitSegs_ne_nil : ∀ segs : List Seg, splitSegs segs ≠ [] := by
  intro segs
  cases segs with
  | nil => simp [splitSegs]
  | cons seg rest =>
      match seg with
      | Seg.plain s =>
          rcases h : splitSegs rest with _ | ⟨h1, t⟩
          · simp [splitSegs, h]
          · rcases h2 : splitOnChar FDD1 s with _ | ⟨p, ps⟩
            · simp [splitSegs, h, h2]
            · simp [splitSegs, h, h2]
      | Seg.bookTok =>
          rcases h : splitSegs rest with _ | ⟨h1, t⟩ <;> simp [splitSegs, h]
      | Seg.chapTok =>
          rcases h : splitSegs rest with _ | ⟨h1, t⟩ <;> simp [splitSegs, h]

theorem splitSegs_text :
    ∀ segs : List Seg,
      splitOnChar FDD1 (segText segs) = (splitSegs segs).map segText := by
  intro segs
  induction segs with
  | nil => rfl
  | cons seg rest ih =>
      rcases h : splitSegs rest with _ | ⟨h1, t⟩
      · exact absurd h (splitSegs_ne_nil rest)
      · rw [h] at ih
        match seg with
        | Seg.plain s =>
            rcases h2 : splitOnChar FDD1 s with _ | ⟨p, ps⟩
            · exact absurd h2 (splitOnChar_ne_nil FDD1 s)
            · rw [show segText (Seg.plain s :: rest) = s ++ segText rest from rfl]
              rw [splitOnChar_append_combine FDD1 s (segText rest) p ps (segText h1)
                (t.map segText) h2 (by simpa using ih)]
              rw [combineText_chunks ps p h1 t]
              rw [show splitSegs (Seg.plain s :: rest)
                  = (Seg.plain p :: headChunk ps h1) :: tailChunks ps h1 t from by
                simp [splitSegs, h, h2]]
              simp [segText]
        | Seg.bookTok =>
            rw [show segText (Seg.bookTok :: rest) = bookTokL ++ segText rest from rfl]
            rw [splitOnChar_sepFree_append FDD1 bookTokL (segText rest) (segText h1)
              (t.map segText) (by decide) (by simpa using ih)]
            rw [show splitSegs (Seg.bookTok :: rest) = (Seg.bookTok :: h1) :: t from by
              simp [splitSegs, h]]
            rfl
        | Seg.chapTok =>
            rw [show segText (Seg.chapTok :: rest) = chapTokL ++ segText rest from rfl]
            rw [splitOnChar_sepFree_append FDD1 chapTokL (segText rest) (segText h1)
              (t.map segText) (by decide) (by simpa using ih)]
            rw [show splitSegs (Seg.chapTok :: rest) = (Seg.chapTok :: h1) :: t from by
              simp [splitSegs, h]]
            rfl

theorem headChunk_cases (ps : List (List Char)) (h : List Seg) :
    headChunk ps h = [] ∨ headChunk ps h = h := by
  cases ps
  · exact Or.inr rfl
  · exact Or.inl rfl

theorem tailChunks_mem :
    ∀ (ps : List (List Char)) (h : List Seg) (t : List (List Seg)) (q : List Seg),
      q ∈ tailChunks ps h t →
      q ∈ t ∨ ∃ p ∈ ps, q = [Seg.plain p] ∨ q = Seg.plain p :: h := by
  intro ps
  induction ps with
  | nil => intro h t q hq; exact Or.inl hq
  | cons p ps' ih =>
      intro h t q hq
      rw [show tailChunks (p :: ps') h t
          = (Seg.plain p :: headChunk ps' h) :: tailChunks ps' h t from rfl] at hq
      rcases List.mem_cons.mp hq with rfl | hq
      · cases ps' with
        | nil => exact Or.inr ⟨p, List.mem_cons_self p [], Or.inr rfl⟩
        | cons a b => exact Or.inr ⟨p, List.mem_cons_self p (a :: b), Or.inl rfl⟩
      · rcases ih h t q hq with hq' | ⟨p', hp', hcase⟩
        · exact Or.inl hq'
        · exact Or.inr ⟨p', List.mem_cons_of_mem p hp', hcase⟩

theorem splitSegs_chapOnly :
    ∀ segs : List Seg, chapOnlyOK segs = true →
      ∀ q ∈ splitSegs segs, chapOnlyOK q = true := by
  intro segs
  induction segs with
  | nil =>
      intro _ q hq
      rw [show splitSegs [] = [[]] from rfl] at hq
      rcases List.mem_cons.mp hq with rfl | hq
      · rfl
      · cases hq
  | cons seg rest ih =>
      intro hg q hq
      rcases h : splitSegs rest with _ | ⟨h1, t⟩
      · exact absurd h (splitSegs_ne_nil rest)
      · match seg with
        | Seg.plain s =>
            rcases chapOnly_cons_plain s rest hg with ⟨hnd, hg'⟩
            have ihq := ih hg'
            have hheadOK : chapOnlyOK h1 = true :=
              ihq h1 (by rw [h]; exact List.mem_cons_self h1 t)
            rcases h2 : splitOnChar FDD1 s with _ | ⟨p, ps⟩
            · exact absurd h2 (splitOnChar_ne_nil FDD1 s)
            · rw [show splitSegs (Seg.plain s :: rest)
                  = (Seg.plain p :: headChunk ps h1) :: tailChunks ps h1 t from by
                simp [splitSegs, h, h2]] at hq
              have hmemOK : ∀ x, x ∈ splitOnChar FDD1 s → noDollar x = true := by
                intro x hx
                exact noDollar_of_not_mem x (fun hc =>
                  noDollar_not_mem s hnd (splitOnChar_mem FDD1 s x hx '$' hc))
              rcases List.mem_cons.mp hq with rfl | hq
              · have hp : noDollar p = true :=
                  hmemOK p (by rw [h2]; exact List.mem_cons_self p ps)
                show (noDollar p && chapOnlyOK (headChunk ps h1)) = true
                rcases headChunk_cases ps h1 with he | he <;> rw [he]
                · simp [hp]; rfl
                · simp [hp, hheadOK]
              · rcases tailChunks_mem ps h1 t q hq with hq' | ⟨p', hp', hcase⟩
                · exact ihq q (by rw [h]; exact List.mem_cons_of_mem h1 hq')
                · have hpd : noDollar p' = true :=
                    hmemOK p' (by rw [h2]; exact List.mem_cons_of_mem p hp')
                  rcases hcase with rfl | rfl
                  · show (noDollar p' && chapOnlyOK ([] : List Seg)) = true
                    simp [hpd]; rfl
                  · show (noDollar p' && chapOnlyOK h1) = true
                    simp [hpd, hheadOK]
        | Seg.chapTok =>
            have hg' : chapOnlyOK rest = true := hg
            have ihq := ih hg'
            rw [show splitSegs (Seg.chapTok :: rest) = (Seg.chapTok :: h1) :: t from by
              simp [splitSegs, h]] at hq
            rcases List.mem_cons.mp hq with rfl | hq
            · show chapOnlyOK h1 = true
              exact ihq h1 (by rw [h]; exact List.mem_cons_self h1 t)
            · exact ihq q (by rw [h]; exact List.mem_cons_of_mem h1 hq)
        | Seg.bookTok =>
            rw [show chapOnlyOK (Seg.bookTok :: rest) = false from rfl] at hg
            cases hg

theorem chapResolvable_processChap (p : List Seg) (hok : chapOnlyOK p = true)
    (hr : chapResolvable p = true) :
    '$' ∉ processChapChunk (segText p) := by
  intro hm
  rcases hcs : chapSearch (segText p) with _ | w
  · simp only [processChapChunk, hcs] at hm
    simp [chapResolvable, hcs] at hr
    exact chapOnly_noChap_nomem p hok hr hm
  · simp only [processChapChunk, hcs] at hm
    simp [chapResolvable, hcs] at hr
    rw [show replaceChap w (segText p)
        = replaceLitFuel chapTokL w (segText p).length (segText p) from rfl] at hm
    rw [replaceChap_segs w p (segText p).length hok (le_refl _)] at hm
    exact chapOnly_subst_nomem w (noDollar_not_mem w hr) p hok hm

theorem processBookChunk_nomem (bc : List Char) (v : List Char) (segs : List Seg)
    (hs : bookSearch bc = some v) (hv : noDollar v = true)
    (hbc : bc = segText segs) (hg : goodSegs segs = true)
    (hres : ((splitSegs (substBook v segs)).all chapResolvable) = true) :
    '$' ∉ processBookChunk bc := by
  intro hm
  simp only [processBookChunk, hs] at hm
  rw [hbc] at hm
  rw [show replaceBook v (segText segs)
      = replaceLitFuel bookTokL v (segText segs).length (segText segs) from rfl] at hm
  rw [replaceBook_segs v segs (segText segs).length hg (le_refl _)] at hm
  rw [splitSegs_text (substBook v segs)] at hm
  rw [List.map_map] at hm
  rcases List.mem_flatten.mp hm with ⟨x, hx, hmx⟩
  rcases List.mem_map.mp hx with ⟨q, hq, rfl⟩
  simp only [Function.comp_apply] at hmx
  have hok : chapOnlyOK q = true :=
    splitSegs_chapOnly (substBook v segs) (substBook_chapOnly v hv segs hg) q hq
  have hr : chapResolvable q = true := by
    have hall := List.all_eq_true.mp hres q hq
    simpa using hall
  exact chapResolvable_processChap q hok hr hmx

/-- C2: after the placeholder-resolution pass `fill_osisIDs` of
process_osisIDs, no `$BOOK$` or `$CHAP$` placeholder token remains in the
document, for any well-formed input: every book chunk carries a recognizable
book-opening element with a `$`-free osisID and decomposes into `$`-free
plain text and placeholder tokens such that, after the book substitution,
every chapter chunk either carries a chapter osisID (with a `$`-free chapter
number) or contains no chapter placeholder. Moreover a book chunk lacking a
recognizable book-opening element is passed through unchanged rather than
failing. -/
theorem fill_resolves_placeholders (osis : List Char)
    (H : ∀ bc ∈ splitOnChar FDD0 osis,
      ∃ v segs, bookSearch bc = some v ∧ noDollar v = true ∧
        bc = segText segs ∧ goodSegs segs = true ∧
        ((splitSegs (substBook v segs)).all chapResolvable) = true) :
    (containsSub bookTokL (fill_osisIDs osis) = false
      ∧ containsSub chapTokL (fill_osisIDs osis) = false)
    ∧ ∀ doc : List Char, bookSearch doc = none → processBookChunk doc = doc := by
  have hnom : '$' ∉ fill_osisIDs osis := by
    intro hm
    rw [show fill_osisIDs osis
        = ((splitOnChar FDD0 osis).map processBookChunk).flatten from rfl] at hm
    rcases List.mem_flatten.mp hm with ⟨x, hx, hmx⟩
    rcases List.mem_map.mp hx with ⟨bc, hbc, rfl⟩
    rcases H bc hbc with ⟨v, segs, h1, h2, h3, h4, h5⟩
    exact processBookChunk_nomem bc v segs h1 h2 h3 h4 h5 hmx
  refine ⟨⟨?_, ?_⟩, ?_⟩
  · exact containsSub_notMem_head '$' ['B', 'O', 'O', 'K', '$'] _ hnom
  · exact containsSub_notMem_head '$' ['C', 'H', 'A', 'P', '$'] _ hnom
  · intro doc hn
    simp [processBookChunk, hn]

set_option maxRecDepth 100000 in
theorem fill_resolves_placeholders_witness :
    ((containsSub bookTokL (fill_osisIDs docC2) = false
      ∧ containsSub chapTokL (fill_osisIDs docC2) = false)
    ∧ processBookChunk (("no book element here").data)
        = ("no book element here").data) := by
  have h := fill_resolves_placeholders docC2 (by
    intro bc hbc
    rw [show splitOnChar FDD0 docC2 = [docC2] from by decide] at hbc
    have he : bc = docC2 := List.mem_singleton.mp hbc
    subst he
    exact ⟨("GEN").data, segsC2, by decide, by decide, by decide, by decide,
      by decide⟩)
  exact ⟨h.1, h.2 (("no book element here").data) (by decide)⟩

/- Lemmas about digit runs and the range/series expansions. -/

theorem digitRuns_skip (c : Char) (t : List Char) (hc : pyDigit c = false) :
    digitRuns (c :: t) = digitRuns t := by
  simp [digitRuns, hc]

theorem digitRuns_append_run :
    ∀ (run t : List Char), run ≠ [] → (∀ c ∈ run, pyDigit c = true) →
      (∀ d, t.head? = some d → pyDigit d = false) →
      digitRuns (run ++ t) = run :: digitRuns t
  | [], _, hne, _, _ => absurd rfl hne
  | [c], t, _, hd, ht => by
      have hc : pyDigit c = true := hd c (List.mem_cons_self _ _)
      cases t with
      | nil => simp [digitRuns, consRun, hc]
      | cons d t' =>
          have hdt : pyDigit d = false := ht d rfl
          have hskip : digitRuns (d :: t') = digitRuns t' := digitRuns_skip d t' hdt
          rcases hrt : digitRuns t' with _ | ⟨r, rs⟩
          · simp [digitRuns, consRun, hc, hdt, hskip, hrt]
          · simp [digitRuns, consRun, hc, hdt, hskip, hrt]
  | c1 :: c2 :: run', t, _, hd, ht => by
      have hc1 : pyDigit c1 = true := hd c1 (List.mem_cons_self _ _)
      have hc2 : pyDigit c2 = true := hd c2 (List.mem_cons_of_mem _ (List.mem_cons_self _ _))
      have ih := digitRuns_append_run (c2 :: run') t (by simp)
        (fun c hc => hd c (List.mem_cons_of_mem _ hc)) ht
      simp only [List.cons_append] at ih ⊢
      rw [digitRuns, ih]
      simp [consRun, hc1, hc2]

theorem digitRuns_single (run : List Char) (hne : run ≠ [])
    (hd : ∀ c ∈ run, pyDigit c = true) : digitRuns run = [run] := by
  have h := digitRuns_append_run run [] hne hd (by intro d hd'; cases hd')
  simpa [digitRuns] using h

theorem get_map_range' (f : Nat → List Char) :
    ∀ (n a i : Nat) (hi : i < ((List.range' a n).map f).length),
      ((List.range' a n).map f).get ⟨i, hi⟩ = f (a + i)
  | 0, _, i, hi => absurd hi (by simp)
  | n + 1, a, 0, hi => by simp [List.range']
  | n + 1, a, i + 1, hi => by
      have h := get_map_range' f n (a + 1) i (by
        simp only [List.length_map, List.length_range'] at hi ⊢
        omega)
      have harith : a + 1 + i = a + (i + 1) := by omega
      rw [harith] at h
      simpa [List.range'] using h

set_option maxRecDepth 100000 in
/-- C4.  A verse range `lo-hi` with `lo ≤ hi` expands to exactly the
identifiers for `lo, lo+1, …, hi` in ascending order (the i-th emitted
identifier carries the number `lo + i` and there are `hi - lo + 1` of them);
in particular, in chapter 2 of book GEN the range `5-7` resolves to exactly
`GEN.2.5 GEN.2.6 GEN.2.7`. -/
theorem expand_range_enumerates :
    (∀ sa sb : List Char, sa ≠ [] → sb ≠ [] →
      (∀ c ∈ sa, pyDigit c = true) → (∀ c ∈ sb, pyDigit c = true) →
      toNatDigits sa ≤ toNatDigits sb →
      ∃ ids : List (List Char),
        expand_range (sa ++ '-' :: sb) = some (joinWith [' '] ids)
        ∧ ids.length = toNatDigits sb + 1 - toNatDigits sa
        ∧ ∀ (i : Nat) (hi : i < ids.length),
            ids.get ⟨i, hi⟩ = idStem ++ (Nat.repr (toNatDigits sa + i)).data)
    ∧ process_osisIDs rangeDoc = rangeDocResolved := by
  constructor
  · intro sa sb hna hnb hda hdb _
    have hruns : digitRuns (sa ++ '-' :: sb) = [sa, sb] := by
      rw [digitRuns_append_run sa ('-' :: sb) hna hda (by intro d hd; cases hd; decide),
        digitRuns_skip '-' sb (by decide),
        digitRuns_single sb hnb hdb]
    refine ⟨(List.range' (toNatDigits sa)
      (toNatDigits sb + 1 - toNatDigits sa)).map (fun n => idStem ++ (Nat.repr n).data),
      ?_, ?_, ?_⟩
    · simp [expand_range, hruns]
    · simp
    · intro i hi
      exact get_map_range' _ _ _ i hi
  · decide

set_option maxRecDepth 100000 in
/-- C5.  A comma-separated verse series expands to the individual
identifiers in exactly the given order — the result is the order-preserving
map of the given runs, with no sorting and no deduplication; in particular,
in chapter 2 of book GEN the series `3,5,9` resolves to exactly
`GEN.2.3 GEN.2.5 GEN.2.9`. -/
theorem expand_series_enumerates :
    (∀ runs : List (List Char), runs ≠ [] →
      (∀ r ∈ runs, r ≠ [] ∧ ∀ c ∈ r, pyDigit c = true) →
      expand_series (joinWith [','] runs)
        = joinWith [' '] (runs.map (fun r => idStem ++ r)))
    ∧ process_osisIDs seriesDoc = seriesDocResolved := by
  constructor
  · intro runs hne hruns
    suffices h : digitRuns (joinWith [','] runs) = runs by
      simp [expand_series, h]
    clear hne
    induction runs with
    | nil => simp [joinWith, digitRuns]
    | cons r rs ih =>
        rcases hruns r (List.mem_cons_self _ _) with ⟨hrne, hrd⟩
        cases rs with
        | nil => simpa [joinWith] using digitRuns_single r hrne hrd
        | cons r2 rs' =>
            have hjoin : joinWith [','] (r :: r2 :: rs')
                = r ++ ',' :: joinWith [','] (r2 :: rs') := by
              simp [joinWith]
            rw [hjoin,
              digitRuns_append_run r (',' :: joinWith [','] (r2 :: rs')) hrne hrd
                (by intro d hd; cases hd; decide),
              digitRuns_skip ',' _ (by decide),
              ih (fun x hx => hruns x (List.mem_cons_of_mem _ hx))]
  · decide

set_option maxRecDepth 100000 in
/-- Witness for C4: the range `5-7` with concrete digit strings. -/
theorem expand_range_enumerates_witness :
    ∃ ids : List (List Char),
      expand_range ("5".data ++ '-' :: "7".data) = some (joinWith [' '] ids)
      ∧ ids.length = toNatDigits "7".data + 1 - toNatDigits "5".data
      ∧ ∀ (i : Nat) (hi : i < ids.length),
          ids.get ⟨i, hi⟩ = idStem ++ (Nat.repr (toNatDigits "5".data + i)).data :=
  expand_range_enumerates.1 "5".data "7".data (by decide) (by decide)
    (by decide) (by decide) (by decide)

set_option maxRecDepth 100000 in
/-- Witness for C5: the series `3,5,9` with concrete digit strings. -/
theorem expand_series_enumerates_witness :
    expand_series (joinWith [','] ["3".data, "5".data, "9".data])
      = joinWith [' '] (["3".data, "5".data, "9".data].map (fun r => idStem ++ r)) :=
  expand_series_enumerates.1 ["3".data, "5".data, "9".data] (by decide) (by decide)

theorem append3_merge (A B C L T : List Char) (h : A ++ (B ++ C) = L) :
    A ++ (B ++ (C ++ T)) = L ++ T := by
  subst h
  simp [List.append_assoc]

theorem append2_merge (A C L T : List Char) (h : A ++ C = L) :
    A ++ (([] : List Char) ++ (C ++ T)) = L ++ T := by
  subst h
  simp [List.append_assoc]

theorem append_caller_merge (A nb qt C L M c T : List Char)
    (h1 : A ++ nb = L) (h2 : qt ++ C = M) :
    A ++ ((nb ++ (c ++ qt)) ++ (C ++ T)) = L ++ (c ++ (M ++ T)) := by
  subst h1
  subst h2
  simp [List.append_assoc]

/-- C10.  For footnotes, endnotes and cross-references alike, the generated
note's `n` attribute is determined by the caller token: caller `-` yields an
empty `n=""`, caller `+` yields no `n` attribute at all (the open tag is
exactly `<note placement=…>` / `<note type=…>`), and any other caller `c`
yields `n="c"`. -/
theorem note_caller_attr_spec :
    (∀ c p : List Char,
      (c = ("-").data → footnote_repl (some c) p
        = some (("<note n=\"\" placement=\"foot\">").data
            ++ (p ++ FDDF :: ("</note>").data)))
      ∧ (c = ("+").data → footnote_repl (some c) p
        = some (("<note placement=\"foot\">").data
            ++ (p ++ FDDF :: ("</note>").data)))
      ∧ (c ≠ ("-").data → c ≠ ("+").data → footnote_repl (some c) p
        = some (("<note n=\"").data ++ (c ++ (("\" placement=\"foot\">").data
            ++ (p ++ FDDF :: ("</note>").data))))))
    ∧ (∀ c p : List Char,
      (c = ("-").data → endnote_repl c p
        = ("<note n=\"\" placement=\"end\">").data ++ (p ++ FDDF :: ("</note>").data))
      ∧ (c = ("+").data → endnote_repl c p
        = ("<note placement=\"end\">").data ++ (p ++ FDDF :: ("</note>").data))
      ∧ (c ≠ ("-").data → c ≠ ("+").data → endnote_repl c p
        = ("<note n=\"").data ++ (c ++ (("\" placement=\"end\">").data
            ++ (p ++ FDDF :: ("</note>").data)))))
    ∧ (∀ c p : List Char,
      (c = ("-").data → xref_repl c p
        = ("<note n=\"\" type=\"crossReference\">").data
            ++ (p ++ FDDF :: ("</note>").data))
      ∧ (c = ("+").data → xref_repl c p
        = ("<note type=\"crossReference\">").data ++ (p ++ FDDF :: ("</note>").data))
      ∧ (c ≠ ("-").data → c ≠ ("+").data → xref_repl c p
        = ("<note n=\"").data ++ (c ++ (("\" type=\"crossReference\">").data
            ++ (p ++ FDDF :: ("</note>").data))))) := by
  have hminus : caller_n_attr (("-").data) = (" n=\"\"").data := by decide
  have hplus : caller_n_attr (("+").data) = [] := by decide
  have hother : ∀ c : List Char, c ≠ ("-").data → c ≠ ("+").data →
      caller_n_attr c = (" n=\"").data ++ (c ++ ['"']) := by
    intro c h1 h2
    simp [caller_n_attr, h1, h2]
  refine ⟨fun c p => ⟨?_, ?_, ?_⟩, fun c p => ⟨?_, ?_, ?_⟩, fun c p => ⟨?_, ?_, ?_⟩⟩
  · intro h; subst h
    simp only [footnote_repl, hminus]
    exact congrArg some (append3_merge _ _ _ _ _ (by decide))
  · intro h; subst h
    simp only [footnote_repl, hplus]
    exact congrArg some (append2_merge _ _ _ _ (by decide))
  · intro h1 h2
    simp only [footnote_repl, hother c h1 h2]
    exact congrArg some (append_caller_merge _ _ _ _ _ _ _ _ (by decide) (by decide))
  · intro h; subst h
    simp only [endnote_repl, hminus]
    exact append3_merge _ _ _ _ _ (by decide)
  · intro h; subst h
    simp only [endnote_repl, hplus]
    exact append2_merge _ _ _ _ (by decide)
  · intro h1 h2
    simp only [endnote_repl, hother c h1 h2]
    exact append_caller_merge _ _ _ _ _ _ _ _ (by decide) (by decide)
  · intro h; subst h
    simp only [xref_repl, hminus]
    exact append3_merge _ _ _ _ _ (by decide)
  · intro h; subst h
    simp only [xref_repl, hplus]
    exact append2_merge _ _ _ _ (by decide)
  · intro h1 h2
    simp only [xref_repl, hother c h1 h2]
    exact append_caller_merge _ _ _ _ _ _ _ _ (by decide) (by decide)

/-- Witness for C10: concrete callers `-`, `+`, and `a` on a concrete
payload. -/
theorem note_caller_attr_spec_witness :
    footnote_repl (some (("-").data)) (("x").data)
      = some (("<note n=\"\" placement=\"foot\">").data
          ++ (("x").data ++ FDDF :: ("</note>").data))
    ∧ footnote_repl (some (("+").data)) (("x").data)
      = some (("<note placement=\"foot\">").data
          ++ (("x").data ++ FDDF :: ("</note>").data))
    ∧ footnote_repl (some (("a").data)) (("x").data)
      = some (("<note n=\"").data ++ (("a").data ++ (("\" placement=\"foot\">").data
          ++ (("x").data ++ FDDF :: ("</note>").data)))) :=
  ⟨(note_caller_attr_spec.1 (("-").data) (("x").data)).1 rfl,
   (note_caller_attr_spec.1 (("+").data) (("x").data)).2.1 rfl,
   (note_caller_attr_spec.1 (("a").data) (("x").data)).2.2 (by decide) (by decide)⟩

/- Lemmas about the stable insertion model of Python's `sorted`. -/

theorem insertStable_all_le (le : α → α → Bool) (x : α) :
    ∀ acc : List α, (∀ y ∈ acc, le y x = true) →
      insertStable le x acc = acc ++ [x]
  | [], _ => rfl
  | y :: ys, h => by
      have hy : le y x = true := h y (List.mem_cons_self _ _)
      simp [insertStable, hy,
        insertStable_all_le le x ys (fun z hz => h z (List.mem_cons_of_mem _ hz))]

theorem insertStable_stops (le : α → α → Bool) (x : α) :
    ∀ A U : List α, (∀ u ∈ U, le u x = false) →
      insertStable le x (A ++ U) = insertStable le x A ++ U
  | [], U, h => by
      cases U with
      | nil => rfl
      | cons u us =>
          have hu : le u x = false := h u (List.mem_cons_self _ _)
          simp [insertStable, hu]
  | y :: A, U, h => by
      by_cases hy : le y x = true
      · simp [insertStable, hy, insertStable_stops le x A U h]
      · have hy' : le y x = false := by simpa using hy
        simp [insertStable, hy']

theorem mem_insertStable (le : α → α → Bool) (x z : α) :
    ∀ l : List α, z ∈ insertStable le x l → z = x ∨ z ∈ l
  | [], h => by simpa [insertStable] using h
  | y :: ys, h => by
      by_cases hy : le y x = true
      · simp only [insertStable, hy, if_true, List.mem_cons] at h
        rcases h with h | h
        · exact Or.inr (h ▸ List.mem_cons_self y ys)
        · rcases mem_insertStable le x z ys h with h' | h'
          · exact Or.inl h'
          · exact Or.inr (List.mem_cons_of_mem _ h')
      · have hy' : le y x = false := by simpa using hy
        simp only [insertStable, hy', if_false, Bool.false_eq_true, List.mem_cons] at h
        rcases h with h | h | h
        · exact Or.inl h
        · exact Or.inr (h ▸ List.mem_cons_self y ys)
        · exact Or.inr (List.mem_cons_of_mem _ h)

theorem pairwise_insertStable (le : α → α → Bool)
    (htot : ∀ a b, le a b = true ∨ le b a = true)
    (htrans : ∀ a b c, le a b = true → le b c = true → le a c = true)
    (x : α) :
    ∀ l : List α, List.Pairwise (fun a b => le a b = true) l →
      List.Pairwise (fun a b => le a b = true) (insertStable le x l)
  | [], _ => List.pairwise_singleton _ x
  | y :: ys, h => by
      rcases List.pairwise_cons.mp h with ⟨hy, hys⟩
      by_cases hcase : le y x = true
      · simp only [insertStable, hcase, if_true]
        refine List.pairwise_cons.mpr ⟨?_, pairwise_insertStable le htot htrans x ys hys⟩
        intro z hz
        rcases mem_insertStable le x z ys hz with rfl | hz'
        · exact hcase
        · exact hy z hz'
      · have hxy : le x y = true := (htot x y).resolve_right (by simpa using hcase)
        have hy' : le y x = false := by simpa using hcase
        simp only [insertStable, hy', Bool.false_eq_true, if_false]
        refine List.pairwise_cons.mpr ⟨?_, h⟩
        intro z hz
        rcases List.mem_cons.mp hz with rfl | hz'
        · exact hxy
        · exact htrans x y z hxy (hy z hz')

theorem pairwise_sortedStable (le : α → α → Bool)
    (htot : ∀ a b, le a b = true ∨ le b a = true)
    (htrans : ∀ a b c, le a b = true → le b c = true → le a c = true)
    (l : List α) :
    List.Pairwise (fun a b => le a b = true) (sortedStable le l) := by
  suffices h : ∀ (rest acc : List α),
      List.Pairwise (fun a b => le a b = true) acc →
      List.Pairwise (fun a b => le a b = true)
        (List.foldl (fun acc x => insertStable le x acc) acc rest) by
    exact h l [] List.Pairwise.nil
  intro rest
  induction rest with
  | nil => intro acc hacc; simpa using hacc
  | cons x xs ih =>
      intro acc hacc
      exact ih _ (pairwise_insertStable le htot htrans x acc hacc)

theorem foldl_insert_split (le : α → α → Bool) (bad : α → Bool)
    (hgood : ∀ x u, bad x = false → bad u = true → le u x = false)
    (hbad : ∀ x y, bad x = true → le y x = true) :
    ∀ (files A U : List α), (∀ u ∈ U, bad u = true) →
      List.foldl (fun acc x => insertStable le x acc) (A ++ U) files
        = List.foldl (fun acc x => insertStable le x acc) A
            (files.filter (fun f => !bad f)) ++ U ++ files.filter bad
  | [], A, U, _ => by simp
  | x :: xs, A, U, hU => by
      by_cases hbx : bad x = true
      · have hall : ∀ y ∈ A ++ U, le y x = true := fun y _ => hbad x y hbx
        have h1 : insertStable le x (A ++ U) = A ++ (U ++ [x]) := by
          rw [insertStable_all_le le x (A ++ U) hall, List.append_assoc]
        have hU' : ∀ u ∈ U ++ [x], bad u = true := by
          intro u hu
          rcases List.mem_append.mp hu with hu | hu
          · exact hU u hu
          · simpa using List.mem_singleton.mp hu ▸ hbx
        calc List.foldl (fun acc x => insertStable le x acc) (A ++ U) (x :: xs)
            = List.foldl (fun acc x => insertStable le x acc) (A ++ (U ++ [x])) xs := by
              simp [h1]
          _ = List.foldl (fun acc x => insertStable le x acc) A
                (xs.filter (fun f => !bad f)) ++ (U ++ [x]) ++ xs.filter bad :=
              foldl_insert_split le bad hgood hbad xs A (U ++ [x]) hU'
          _ = List.foldl (fun acc x => insertStable le x acc) A
                ((x :: xs).filter (fun f => !bad f)) ++ U ++ (x :: xs).filter bad := by
              simp [List.filter_cons, hbx, List.append_assoc]
      · have hbx' : bad x = false := by simpa using hbx
        have hstop : ∀ u ∈ U, le u x = false := fun u hu => hgood x u hbx' (hU u hu)
        have h1 : insertStable le x (A ++ U) = insertStable le x A ++ U :=
          insertStable_stops le x A U hstop
        calc List.foldl (fun acc x => insertStable le x acc) (A ++ U) (x :: xs)
            = List.foldl (fun acc x => insertStable le x acc)
                (insertStable le x A ++ U) xs := by simp [h1]
          _ = List.foldl (fun acc x => insertStable le x acc) (insertStable le x A)
                (xs.filter (fun f => !bad f)) ++ U ++ xs.filter bad :=
              foldl_insert_split le bad hgood hbad xs (insertStable le x A) U hU
          _ = List.foldl (fun acc x => insertStable le x acc) A
                ((x :: xs).filter (fun f => !bad f)) ++ U ++ (x :: xs).filter bad := by
              simp [List.filter_cons, hbx', List.foldl_cons]

theorem foldl_insert_sorted (le : α → α → Bool) :
    ∀ (rest acc : List α),
      (∀ y ∈ acc, ∀ x ∈ rest, le y x = true) →
      List.Pairwise (fun a b => le a b = true) rest →
      List.foldl (fun acc x => insertStable le x acc) acc rest = acc ++ rest
  | [], acc, _, _ => by simp
  | x :: xs, acc, hacc, hrest => by
      rcases List.pairwise_cons.mp hrest with ⟨hx, hxs⟩
      have h1 : insertStable le x acc = acc ++ [x] :=
        insertStable_all_le le x acc
          (fun y hy => hacc y hy x (List.mem_cons_self _ _))
      have hacc' : ∀ y ∈ acc ++ [x], ∀ z ∈ xs, le y z = true := by
        intro y hy z hz
        rcases List.mem_append.mp hy with hy | hy
        · exact hacc y hy z (List.mem_cons_of_mem _ hz)
        · exact List.mem_singleton.mp hy ▸ hx z hz
      calc List.foldl (fun acc x => insertStable le x acc) acc (x :: xs)
          = List.foldl (fun acc x => insertStable le x acc) (acc ++ [x]) xs := by
            simp [h1]
        _ = (acc ++ [x]) ++ xs := foldl_insert_sorted le xs (acc ++ [x]) hacc' hxs
        _ = acc ++ x :: xs := by simp

/- Properties of `keyInfLe` (the order on `key_canon`-style keys). -/

theorem keyInfLe_total (a b : Option Nat) : keyInfLe a b = true ∨ keyInfLe b a = true := by
  cases a <;> cases b <;> simp [keyInfLe] <;> try omega

theorem keyInfLe_trans (a b c : Option Nat) :
    keyInfLe a b = true → keyInfLe b c = true → keyInfLe a c = true := by
  cases a <;> cases b <;> cases c <;> simp [keyInfLe] <;> try omega

/-- C7.  Sorting with the canonical-order key orders files mapping to known
books by their canonical position (keys are non-decreasing in the output, and
the reversed sample {Matthew, Exodus, Genesis} comes out as Genesis, Exodus,
Matthew), while every filename not found in the lookup receives the infinite
key and sorts after all recognized files, preserving relative input order
among the unrecognized files (the output is exactly the sorted recognized
files followed by the unrecognized files in input order). -/
theorem canonical_sort_key_spec :
    (sortCanon ["MAT".data, "EXO".data, "GEN".data]
        = ["GEN".data, "EXO".data, "MAT".data])
    ∧ (∀ files : List (List Char),
        sortCanon files
          = sortCanon (files.filter (fun f => !(key_canon f).isNone))
              ++ files.filter (fun f => (key_canon f).isNone))
    ∧ (∀ files : List (List Char),
        List.Pairwise (fun a b => keyInfLe (key_canon a) (key_canon b) = true)
          (sortCanon files)) := by
  refine ⟨by decide, ?_, ?_⟩
  · intro files
    have h := foldl_insert_split
      (fun a b => keyInfLe (key_canon a) (key_canon b))
      (fun f => (key_canon f).isNone)
      (fun x u hx hu => by
        rcases hnu : key_canon u with _ | k
        · rcases hnx : key_canon x with _ | j
          · simp [hnx, Option.isNone] at hx
          · simp [keyInfLe, hnu, hnx]
        · simp [hnu, Option.isNone] at hu)
      (fun x y hx => by
        rcases hnx : key_canon x with _ | j
        · cases hny : key_canon y <;> simp [keyInfLe, hnx, hny]
        · simp [hnx, Option.isNone] at hx)
      files [] [] (by intro u hu; simp at hu)
    simpa [sortCanon, sortedStable] using h
  · intro files
    exact pairwise_sortedStable _
      (fun a b => keyInfLe_total (key_canon a) (key_canon b))
      (fun a b c => keyInfLe_trans (key_canon a) (key_canon b) (key_canon c))
      files

/-- C8.  The natural-order key maps each string to its maximal digit runs
(each a single decimal number) and its non-digit characters lowercased;
compared element-wise (numbers before characters), "9" < "10th" < "a", and
sorting the sample set {"Z","a","10th","1st","9"} yields exactly
["1st","9","10th","a","Z"]. -/
theorem natural_sort_spec :
    (key_natural "Z".data = [KItem.ch 'z']
      ∧ key_natural "a".data = [KItem.ch 'a']
      ∧ key_natural "10th".data = [KItem.num 10, KItem.ch 't', KItem.ch 'h']
      ∧ key_natural "1st".data = [KItem.num 1, KItem.ch 's', KItem.ch 't']
      ∧ key_natural "9".data = [KItem.num 9])
    ∧ (kListLe (key_natural "9".data) (key_natural "10th".data) = true
      ∧ kListLe (key_natural "10th".data) (key_natural "9".data) = false
      ∧ kListLe (key_natural "10th".data) (key_natural "a".data) = true
      ∧ kListLe (key_natural "a".data) (key_natural "10th".data) = false)
    ∧ sortNatural ["Z".data, "a".data, "10th".data, "1st".data, "9".data]
        = ["1st".data, "9".data, "10th".data, "a".data, "Z".data] := by
  refine ⟨by decide, by decide, by decide⟩

/-- C9 counterexample.  The supplied-order counter is not reset between
invocations: a first sorting run over one item assigns key 1 and leaves the
process-wide counter at 1, so a second, independent run over the same
one-item input assigns key 2 ≠ 1 — the keys of a fresh run do depend on
earlier builds, contradicting the claim as stated. -/
theorem key_supplied_not_reset_cex :
    (keySuppliedRun 0 ["a".data]).1 = [1]
    ∧ (keySuppliedRun 0 ["a".data]).2 = 1
    ∧ (keySuppliedRun (keySuppliedRun 0 ["a".data]).2 ["a".data]).1 = [2]
    ∧ ((keySuppliedRun (keySuppliedRun 0 ["a".data]).2 ["a".data]).1
        ≠ (keySuppliedRun 0 ["a".data]).1) := by
  refine ⟨rfl, rfl, rfl, by decide⟩

theorem keySuppliedRun_spec (c : Nat) :
    ∀ l : List α,
      (keySuppliedRun c l).1 = List.range' (c + 1) l.length
      ∧ (keySuppliedRun c l).2 = c + l.length := by
  intro l
  induction l generalizing c with
  | nil => simp [keySuppliedRun]
  | cons x xs ih =>
      rcases ih (c := c + 1) with ⟨h1, h2⟩
      refine ⟨?_, ?_⟩
      · simp [keySuppliedRun, key_supplied, h1, List.range']
      · simp [keySuppliedRun, key_supplied, h2]; omega

theorem pairwise_zip_ble (l : List α) :
    ∀ ks : List Nat, List.Pairwise (· < ·) ks →
      List.Pairwise (fun a b : α × Nat => Nat.ble a.2 b.2 = true) (l.zip ks) := by
  induction l with
  | nil => intro ks _; simp
  | cons x xs ih =>
      intro ks hks
      cases ks with
      | nil => simp
      | cons k ks' =>
          rcases List.pairwise_cons.mp hks with ⟨hk, hks'⟩
          refine List.pairwise_cons.mpr ⟨?_, ih ks' hks'⟩
          intro p hp
          have h2 : p.2 ∈ ks' := (List.of_mem_zip hp).2
          have := hk p.2 h2
          simpa [Nat.ble_eq] using Nat.le_of_lt this

/-- C9 amended.  The `key_supplied` counter is process-wide and never reset:
a run starting from counter value c assigns the keys c+1, c+2, …, c+n to the
n items in input order (so the keys of a fresh run depend on the counter
left behind by earlier runs) and leaves the counter at c+n; within any one
run the keys are strictly increasing, so stable sorting by them is a pure
pass-through that keeps the items in the order in which they were supplied. -/
theorem key_supplied_amended (c : Nat) (l : List α) :
    (keySuppliedRun c l).1 = List.range' (c + 1) l.length
    ∧ (keySuppliedRun c l).2 = c + l.length
    ∧ List.Pairwise (· < ·) (keySuppliedRun c l).1
    ∧ sortedStable (fun a b : α × Nat => Nat.ble a.2 b.2)
        (l.zip (keySuppliedRun c l).1) = l.zip (keySuppliedRun c l).1 := by
  rcases keySuppliedRun_spec c l with ⟨h1, h2⟩
  have hpw : List.Pairwise (· < ·) (keySuppliedRun c l).1 := by
    rw [h1]; exact List.pairwise_lt_range' _ _
  refine ⟨h1, h2, hpw, ?_⟩
  have hz := pairwise_zip_ble l (keySuppliedRun c l).1 hpw
  have := foldl_insert_sorted (fun a b : α × Nat => Nat.ble a.2 b.2)
    (l.zip (keySuppliedRun c l).1) [] (by intro y hy; simp at hy) hz
  simpa [sortedStable] using this

end Usfm2Osis
